import Mathlib

/-!
# lab0-c queue: a shallow embedding of `queue.c`

The C program manipulates a circular doubly-linked list through raw pointers.
The embedding keeps that level of detail: a heap maps node addresses to their
`next` / `prev` link fields and to the payload of the enclosing `element_t`;
a pointer is an `Option Nat` (`none` is `NULL`); every C function becomes a
state-passing function in `Except Err`, where `Err.null` is a dereference of
`NULL`, `Err.bounds` is a read outside the allocation the pointer belongs to,
and `Err.fuel` says that the iteration bound given to a loop ran out.
-/

namespace Queue

/-! ## Faults, heap, pointers -/

/-- Why an embedded run produced no result. -/
inductive Err where
  | null
  | fuel
  | bounds
  deriving DecidableEq

/-- The memory the queue lives in.  `next a` and `prev a` are the two link
fields of the `struct list_head` at address `a`; `value a` is the text (the
bytes before the terminator) reached through `container_of (a, element_t,
list)->value`; `freed` logs the elements handed to `q_release_element`. -/
structure Heap where
  next : Nat → Option Nat
  prev : Nat → Option Nat
  value : Nat → List Nat
  freed : List Nat

/-- The store `a->next = v`. -/
def Heap.setNext (h : Heap) (a : Nat) (v : Option Nat) : Heap :=
  { h with next := fun x => if x = a then v else h.next x }

/-- The store `a->prev = v`. -/
def Heap.setPrev (h : Heap) (a : Nat) (v : Option Nat) : Heap :=
  { h with prev := fun x => if x = a then v else h.prev x }

/-- Reading through a pointer: `NULL` faults. -/
def deref (p : Option Nat) : Except Err Nat :=
  match p with
  | none => .error .null
  | some a => .ok a

/-! ## Machine integers -/

/-- Conversion of a non-negative quantity to a 32-bit `int` (two's complement wrap). -/
def toInt32 (n : Nat) : Int :=
  if n % 4294967296 < 2147483648 then ((n % 4294967296 : Nat) : Int)
  else ((n % 4294967296 : Nat) : Int) - 4294967296

/-- Conversion of an `int` to the 64-bit unsigned `size_t`. -/
def toSizeT (i : Int) : Nat := (i % 18446744073709551616).toNat

/-! ## C strings -/

/-- The C function `strlen`: the number of bytes before the first zero byte. -/
def strlen (s : List Nat) : Nat := (s.takeWhile (fun b => b != 0)).length

/-- The C function `strncmp (a, b, n)`: the sign-carrying difference of the first pair of
unequal bytes among the first `n`, where the end of a text reads as the zero
terminator and the scan stops at a terminator. -/
def strncmp : List Nat → List Nat → Nat → Int
  | _, _, 0 => 0
  | a, b, n + 1 =>
    if a.headD 0 ≠ b.headD 0 then (a.headD 0 : Int) - (b.headD 0 : Int)
    else if a.headD 0 = 0 then 0
    else strncmp a.tail b.tail n

/-- Standard lexicographic order on byte strings (a proper initial segment is smaller). -/
def lexLt : List Nat → List Nat → Bool
  | _, [] => false
  | [], _ :: _ => true
  | a :: as, b :: bs => if a < b then true else if b < a then false else lexLt as bs

/-- The non-strict lexicographic order. -/
def lexLe (a b : List Nat) : Bool := !lexLt b a

/-- A payload as `new_element` stores it: no zero byte inside, every byte
below 256, and a length that the `int` used for string lengths can hold. -/
def StrOk (s : List Nat) : Prop :=
  (∀ b ∈ s, 0 < b ∧ b < 256) ∧ s.length < 2147483648

instance (s : List Nat) : Decidable (StrOk s) := by
  unfold StrOk; infer_instance

/-! ## The list primitives of `list.h` -/

/-- Modelled from the spec: `list.h` (`INIT_LIST_HEAD`) is not among the
sources.  Section 4.1: the sentinel is created with `next == prev == self`. -/
def INIT_LIST_HEAD (h : Heap) (head : Nat) : Heap :=
  (h.setNext head (some head)).setPrev head (some head)

/-- Modelled from the spec: `list.h` (`list_add`) is not among the sources.
Section 4.3: links the node immediately after the sentinel. -/
def list_add (h : Heap) (node head : Nat) : Except Err Heap := do
  let next ← deref (h.next head)
  let h1 := h.setPrev next (some node)
  let h2 := h1.setNext node (some next)
  let h3 := h2.setPrev node (some head)
  .ok (h3.setNext head (some node))

/-- Modelled from the spec: `list.h` (`list_add_tail`) is not among the
sources.  Section 4.3: links the node immediately before the sentinel. -/
def list_add_tail (h : Heap) (node head : Nat) : Except Err Heap := do
  let prev ← deref (h.prev head)
  let h1 := h.setNext prev (some node)
  let h2 := h1.setNext node (some head)
  let h3 := h2.setPrev node (some prev)
  .ok (h3.setPrev head (some node))

/-- Modelled from the spec: `list.h` (`list_del`) is not among the sources.
Glossary, "Unlink": the neighbours of the node are linked to each other; the
node's own fields are left as they were. -/
def list_del (h : Heap) (node : Nat) : Except Err Heap := do
  let next ← deref (h.next node)
  let prev ← deref (h.prev node)
  let h1 := h.setPrev next (some prev)
  .ok (h1.setNext prev (some next))

/-- Modelled from the spec: `list.h` (`list_move_tail`) is not among the
sources.  Unlink, then link before the sentinel. -/
def list_move_tail (h : Heap) (node head : Nat) : Except Err Heap := do
  let h1 ← list_del h node
  list_add_tail h1 node head

/-! ## Well-formed queues -/

/-- Node `v` follows node `u`: `u.next == v` and `v.prev == u`. -/
def Linked (h : Heap) (u v : Nat) : Prop := h.next u = some v ∧ h.prev v = some u

instance (h : Heap) (u v : Nat) : Decidable (Linked h u v) := by
  unfold Linked; infer_instance

/-- The ring invariant: starting at the sentinel `head`, the `next` fields run
through the pairwise distinct elements `xs` and back to the sentinel, and
every `prev` field is the inverse of `next`. -/
def Ring (h : Heap) (head : Nat) (xs : List Nat) : Prop :=
  (head :: xs).Nodup ∧ List.Chain' (Linked h) (head :: (xs ++ [head]))

/-- A ring whose elements all carry a payload that `new_element` can have stored. -/
def WfQueue (h : Heap) (head : Nat) (xs : List Nat) : Prop :=
  Ring h head xs ∧ ∀ x ∈ xs, StrOk (h.value x)

/-- A sample heap: the ring `head → xs → head` with the payloads of `vals`
(addresses without an entry carry the empty text). -/
def mkQueue (head : Nat) (xs : List Nat) (vals : List (Nat × List Nat)) : Heap where
  next := fun a => ((head :: xs).zip (xs ++ [head])).lookup a
  prev := fun a => ((xs ++ [head]).zip (head :: xs)).lookup a
  value := fun a => (vals.lookup a).getD []
  freed := []

/-! ## `q_size` -/

/-- The `list_for_each` loop of `q_size`: `li` walks the `next` fields until
it is the sentinel again. -/
def q_size_loop : Nat → Heap → Nat → Option Nat → Nat → Except Err Nat
  | 0, _, _, _, _ => .error .fuel
  | fuel + 1, h, head, li, len =>
    if li = some head then .ok len
    else do
      let a ← deref li
      q_size_loop fuel h head (h.next a) (len + 1)

/-- Function `q_size` (queue.c 152-163): 0 for an absent queue, else the number of
nodes between the sentinel and itself, as an `int`. -/
def q_size (fuel : Nat) (h : Heap) (head : Option Nat) : Except Err Int :=
  match head with
  | none => .ok 0
  | some hd => do
    let n ← q_size_loop fuel h hd (h.next hd) 0
    .ok (toInt32 n)

/-- The walk "read the queue from the sentinel via `next`": the addresses met
before the sentinel comes round again. -/
def q_elems : Nat → Heap → Nat → Option Nat → Except Err (List Nat)
  | 0, _, _, _ => .error .fuel
  | fuel + 1, h, head, li =>
    if li = some head then .ok []
    else do
      let a ← deref li
      let rest ← q_elems fuel h head (h.next a)
      .ok (a :: rest)

/-! ## Sorting -/

/-- The places the pointer-to-pointer `ptr` of `merge_two_lists` can point
to: the local variable `head`, or the `next` field of a node. -/
inductive Loc where
  | headVar
  | nextOf (a : Nat)

/-- The store `*ptr = v` on the pair (heap, local `head`). -/
def storeLoc (h : Heap) (hd : Option Nat) (ptr : Loc) (v : Option Nat) : Heap × Option Nat :=
  match ptr with
  | .headVar => (h, v)
  | .nextOf a => (h.setNext a v, hd)

/-- The load `*ptr`. -/
def loadLoc (h : Heap) (hd : Option Nat) (ptr : Loc) : Option Nat :=
  match ptr with
  | .headVar => hd
  | .nextOf a => h.next a

/-- The test of queue.c 254-258: with `llen`, `rlen` the lengths as `int` and
`n` the greater one, `strncmp (lval, rval, n) > 0`. -/
def cmpGt (lval rval : List Nat) : Bool :=
  let llen := toInt32 (strlen lval)
  let rlen := toInt32 (strlen rval)
  let n := if llen > rlen then llen else rlen
  decide (strncmp lval rval (toSizeT n) > 0)

/-- The `for` loop of `merge_two_lists` (queue.c 253-263) followed by lines
264-266; the state is the heap, the local `head`, `ptr`, `pprev`, `l`, `r`. -/
def merge_loop : Nat → Heap → Option Nat → Loc → Option Nat → Option Nat → Option Nat →
    Except Err (Heap × Option Nat)
  | 0, _, _, _, _, _, _ => .error .fuel
  | fuel + 1, h, hd, ptr, pprev, l, r =>
    match l, r with
    | some a, some b =>
      -- node = (strncmp (lval, rval, n) > 0) ? &r : &l
      let takeR := cmpGt (h.value a) (h.value b)
      let x := if takeR then b else a
      -- *ptr = *node
      let s1 := storeLoc h hd ptr (some x)
      -- (*ptr)->prev = pprev
      match loadLoc s1.1 s1.2 ptr with
      | none => .error .null
      | some y =>
        let h2 := s1.1.setPrev y pprev
        -- ptr = &(*ptr)->next
        match loadLoc h2 s1.2 ptr with
        | none => .error .null
        | some z =>
          -- pprev = *node;  *node = (*node)->next
          if takeR then merge_loop fuel h2 s1.2 (.nextOf z) (some x) l (h2.next x)
          else merge_loop fuel h2 s1.2 (.nextOf z) (some x) (h2.next x) r
    | _, _ =>
      -- *ptr = l ? l : r
      let s1 := storeLoc h hd ptr (if l.isSome then l else r)
      -- (*ptr)->prev = pprev
      match loadLoc s1.1 s1.2 ptr with
      | none => .error .null
      | some y => .ok (s1.1.setPrev y pprev, s1.2)

/-- Function `merge_two_lists` (queue.c 250-267). -/
def merge_two_lists (fuel : Nat) (h : Heap) (l r : Option Nat) : Except Err (Heap × Option Nat) :=
  merge_loop fuel h none .headVar none l r

/-- The slow/fast walk of `mergesort_list` (queue.c 275-277); the result is `slow`. -/
def slow_fast : Nat → Heap → Option Nat → Option Nat → Except Err (Option Nat)
  | 0, _, _, _ => .error .fuel
  | fuel + 1, h, slow, fast =>
    match fast with
    | none => .ok slow
    | some f =>
      match h.next f with
      | none => .ok slow
      | some f1 => do
        let s ← deref slow
        slow_fast fuel h (h.next s) (h.next f1)

/-- Function `mergesort_list` (queue.c 269-285).  Each level of the recursion uses one
unit of fuel; the loops of a level get the fuel of that level. -/
def mergesort_list : Nat → Heap → Option Nat → Except Err (Heap × Option Nat)
  | 0, _, _ => .error .fuel
  | fuel + 1, h, node =>
    match node with
    | none => .ok (h, node)
    | some n =>
      match h.next n with
      | none => .ok (h, node)
      | some f => do
        let slow ← slow_fast (fuel + 1) h node (some f)
        let s ← deref slow
        let mid := h.next s
        let h1 := h.setNext s none
        let m ← deref mid
        let h2 := h1.setPrev m none
        let (h3, left) ← mergesort_list fuel h2 node
        let (h4, right) ← mergesort_list fuel h3 mid
        merge_two_lists (fuel + 1) h4 left right

/-- The walk to the end of the chain in `q_sort` (queue.c 306-307). -/
def last_loop : Nat → Heap → Nat → Except Err Nat
  | 0, _, _ => .error .fuel
  | fuel + 1, h, last =>
    match h.next last with
    | none => .ok last
    | some nx => last_loop fuel h nx

/-- Function `q_sort` (queue.c 292-312). -/
def q_sort (fuel : Nat) (h : Heap) (head : Option Nat) : Except Err Heap :=
  match head with
  | none => .ok h
  | some hd =>
    match h.next hd with
    | none => .ok h
    | some first0 => do
      let last0 ← deref (h.prev hd)
      let h1 := h.setNext last0 none
      let h2 := h1.setPrev hd none
      let h3 := h2.setPrev first0 none
      let h4 := h3.setNext hd none
      let (h5, first) ← mergesort_list fuel h4 (some first0)
      let f ← deref first
      let last ← last_loop fuel h5 f
      let h6 := h5.setNext hd first
      let h7 := h6.setPrev hd (some last)
      let h8 := h7.setPrev f (some hd)
      .ok (h8.setNext last (some hd))

/-- The payloads of the queue in sentinel order after running `op`. -/
def payloadsAfter (fuel : Nat) (op : Except Err Heap) (head : Nat) : Except Err (List (List Nat)) := do
  let h ← op
  let xs ← q_elems fuel h head (h.next head)
  .ok (xs.map h.value)

/-! ## Creation and insertion -/

/-- The store of the text `v` as the payload of the element at `a`. -/
def Heap.setValue (h : Heap) (a : Nat) (v : List Nat) : Heap :=
  { h with value := fun x => if x = a then v else h.value x }

/-- Function `q_new` (queue.c 18-25); `a` is what `malloc` returns, `none` for
a failed allocation. -/
def q_new (h : Heap) (a : Option Nat) : Heap × Option Nat :=
  match a with
  | none => (h, none)
  | some head => (INIT_LIST_HEAD h head, some head)

/-- Function `new_element` (queue.c 39-54); `ele` and `buf` are what the two
calls of `malloc` return (the second call is not made when the first has
failed).  The payload is what `strncpy (ele->value, s, len)` leaves in the
buffer of `len` bytes: the bytes of `s`, as far as `len` reaches. -/
def new_element (h : Heap) (s : List Nat) (ele buf : Option Nat) : Heap × Option Nat :=
  match ele with
  | none => (h, none)
  | some e =>
    -- int len = strlen (s) + 1
    let len := toInt32 (strlen s + 1)
    match buf with
    | none => (h, none)
    | some _ => (h.setValue e ((s.take (strlen s)).take (toSizeT len)), some e)

/-- Function `q_insert_head` (queue.c 64-75). -/
def q_insert_head (h : Heap) (head : Option Nat) (s : List Nat) (ele buf : Option Nat) :
    Except Err (Heap × Bool) :=
  match head with
  | none => .ok (h, false)
  | some hd =>
    match new_element h s ele buf with
    | (h1, none) => .ok (h1, false)
    | (h1, some e) => do
      let h2 ← list_add h1 e hd
      .ok (h2, true)

/-- The calls `q_insert_head (t)` for the pairs `(t, a)` of `ins` one after the
other, every `malloc` succeeding: the element of the call for `(t, a)` is
allocated at `a`.  The flag of the result tells whether every call has
returned true. -/
def insert_heads : Heap → Option Nat → List (List Nat × Nat) → Except Err (Heap × Bool)
  | h, _, [] => .ok (h, true)
  | h, head, (t, a) :: rest => do
    let r ← q_insert_head h head t (some a) (some 0)
    let r2 ← insert_heads r.1 head rest
    .ok (r2.1, r.2 && r2.2)

/-! ## Removal -/

/-- The caller's bytes around the output pointer `sp`, addressed by the offset
from `sp`; the buffer proper is the offsets `0 ≤ i < bufsize`, the other
offsets are the caller's bytes next to it.  These bytes are taken to be apart
from the link fields and payloads of the queue. -/
abbrev Mem := Int → Nat

/-- The C function `strlen (sp)`: the offset of the first zero byte at or after `sp`. -/
def strlenMem : Nat → Mem → Nat → Except Err Nat
  | 0, _, _ => .error .fuel
  | fuel + 1, m, i => if m (i : Int) = 0 then .ok i else strlenMem fuel m (i + 1)

/-- The C function `strncpy (sp, src, n)`: exactly `n` bytes are written from offset 0 on,
the bytes of `src` first and zero bytes once `src` has ended. -/
def strncpy (m : Mem) (src : List Nat) (n : Nat) : Mem :=
  fun i => if 0 ≤ i ∧ i < (n : Int) then (src.take (strlen src)).getD i.toNat 0 else m i

/-- The value of `bufsize - 1` in `size_t` arithmetic. -/
def bufsizeMinus1 (bufsize : Nat) : Nat :=
  (bufsize + 18446744073709551615) % 18446744073709551616

/-- Function `remove_element` (queue.c 97-108).  The result is the heap, the removed
element and the caller's bytes. -/
def remove_element (fuel : Nat) (h : Heap) (pos : Option Nat) (sp : Option Mem) (bufsize : Nat) :
    Except Err (Heap × Option Nat × Option Mem) := do
  let p ← deref pos
  let h1 ← list_del h p
  match sp with
  | none => .ok (h1, pos, none)
  | some m => do
    let sl ← strlenMem fuel m 0
    -- int len = strlen (sp) > bufsize - 1 ? bufsize - 1 : strlen (sp)
    let len := toInt32 (if sl > bufsizeMinus1 bufsize then bufsizeMinus1 bufsize else sl)
    let m1 := strncpy m (h1.value p) (toSizeT len)
    -- sp[len - 1] = 0
    let m2 : Mem := fun i => if i = len - 1 then 0 else m1 i
    .ok (h1, pos, some m2)

/-- Function `q_remove_head` (queue.c 124-127). -/
def q_remove_head (fuel : Nat) (h : Heap) (head : Option Nat) (sp : Option Mem) (bufsize : Nat) :
    Except Err (Heap × Option Nat × Option Mem) := do
  let n ← q_size fuel h head
  if n ≠ 0 then do
    let hd ← deref head
    remove_element fuel h (h.next hd) sp bufsize
  else .ok (h, none, sp)

/-- Function `q_remove_tail` (queue.c 133-136). -/
def q_remove_tail (fuel : Nat) (h : Heap) (head : Option Nat) (sp : Option Mem) (bufsize : Nat) :
    Except Err (Heap × Option Nat × Option Mem) := do
  let n ← q_size fuel h head
  if n ≠ 0 then do
    let hd ← deref head
    remove_element fuel h (h.prev hd) sp bufsize
  else .ok (h, none, sp)

/-- Function `q_release_element` (queue.c 142-146): payload and element are freed. -/
def q_release_element (h : Heap) (e : Option Nat) : Except Err Heap := do
  let a ← deref e
  .ok { h with freed := a :: h.freed }

/-! ## `q_delete_mid` -/

/-- The loop of `q_delete_mid` (queue.c 180-183); the result is `bwd`. -/
def mid_loop : Nat → Heap → Option Nat → Option Nat → Except Err (Option Nat)
  | 0, _, _, _ => .error .fuel
  | fuel + 1, h, fwd, bwd =>
    if fwd ≠ bwd then do
      let f ← deref fwd
      if h.next f ≠ bwd then do
        let b ← deref bwd
        mid_loop fuel h (h.next f) (h.prev b)
      else .ok bwd
    else .ok bwd

/-- Function `q_delete_mid` (queue.c 173-186). -/
def q_delete_mid (fuel : Nat) (h : Heap) (head : Option Nat) : Except Err (Heap × Bool) := do
  let n ← q_size fuel h head
  if n = 0 then .ok (h, false)
  else do
    let hd ← deref head
    let bwd ← mid_loop fuel h (h.next hd) (h.prev hd)
    let r ← remove_element fuel h bwd none 0
    let h2 ← q_release_element r.1 r.2.1
    .ok (h2, true)

/-! ## `q_delete_dup` -/

/-- The test of queue.c 210-211: with `plen`, `clen` the lengths as `int`,
`plen == clen && !strncmp (pval, cval, (size_t) plen)`. -/
def dupEq (pval cval : List Nat) : Bool :=
  let plen := toInt32 (strlen pval)
  let clen := toInt32 (strlen cval)
  decide (plen = clen) && decide (strncmp pval cval (toSizeT plen) = 0)

/-- The `list_for_each_entry_safe` loop of `q_delete_dup` (queue.c 207-213):
`prev` is the entry, `cur` the look-ahead entry, an entry being identified
with the address of its `list` member.  The sentinel `head` is the bare
`struct list_head` that `q_new` allocates (queue.c 20), not a member of an
`element_t`: when `cur` is the entry of the sentinel, `cur->value` (line
209) lies before that allocation and `strlen (cval)` (line 210) follows what
is found there, so this read is the fault `Err.bounds` and nothing after it
is run.  The result is the heap at which the walk stops and the fault that
stopped it, `none` when the loop ends by its condition. -/
def dup_loop : Nat → Heap → Nat → Option Nat → Option Nat → Heap × Option Err
  | 0, h, _, _, _ => (h, some .fuel)
  | fuel + 1, h, head, prev, cur =>
    if prev = some head then (h, none)
    else
      match prev, cur with
      | some p, some c =>
        if c = head then (h, some .bounds)
        else if dupEq (h.value p) (h.value c) then
          match remove_element fuel h prev none 0 >>= fun r => q_release_element r.1 r.2.1 with
          | .ok h1 => dup_loop fuel h1 head cur (h1.next c)
          | .error e => (h, some e)
        else dup_loop fuel h head cur (h.next c)
      | _, _ => (h, some .null)

/-- Function `q_delete_dup` (queue.c 197-215): it returns only if the loop
ends by its condition. -/
def q_delete_dup (fuel : Nat) (h : Heap) (head : Option Nat) : Except Err (Heap × Bool) :=
  match head with
  | none => .ok (h, false)
  | some hd => do
    let n ← q_size fuel h head
    if n < 2 then .ok (h, true)
    else do
      let f ← deref (h.next hd)
      match dup_loop fuel h hd (h.next hd) (h.next f) with
      | (h1, none) => .ok (h1, true)
      | (_, some e) => .error e

/-- The loop of `q_delete_dup` once more, following the walk of `dup_loop` and
returning instead of the heap the pairs of addresses (`prev`, `cur`) at which
lines 208-209 read `value` for the test, in the order of the walk.  The read
at the sentinel, with which the walk of `dup_loop` stops, is the last entry of
the log. -/
def dup_loop_reads : Nat → Heap → Nat → Option Nat → Option Nat → Except Err (List (Nat × Nat))
  | 0, _, _, _, _ => .error .fuel
  | fuel + 1, h, head, prev, cur =>
    if prev = some head then .ok []
    else do
      let p ← deref prev
      let c ← deref cur
      if c = head then .ok [(p, c)]
      else do
        let h1 ← (if dupEq (h.value p) (h.value c) then do
            let r ← remove_element fuel h prev none 0
            q_release_element r.1 r.2.1
          else .ok h)
        let rest ← dup_loop_reads fuel h1 head cur (h1.next c)
        .ok ((p, c) :: rest)

/-- The pairs of addresses at which `q_delete_dup` (queue.c 197-215) reads
the payloads it compares: none when it returns before the loop. -/
def q_delete_dup_reads (fuel : Nat) (h : Heap) (head : Option Nat) :
    Except Err (List (Nat × Nat)) :=
  match head with
  | none => .ok []
  | some hd => do
    let n ← q_size fuel h head
    if n < 2 then .ok []
    else do
      let f ← deref (h.next hd)
      dup_loop_reads fuel h hd (h.next hd) (h.next f)

/-! ## `q_swap` -/

/-- The `for` loop of `q_swap` (queue.c 226-233). -/
def swap_loop : Nat → Heap → Nat → Option Nat → Option Nat → Except Err Heap
  | 0, _, _, _, _ => .error .fuel
  | fuel + 1, h, head, front, back =>
    if front ≠ some head ∧ back ≠ some head then do
      let b ← deref back
      let h1 ← list_del h b
      let h2 ← list_add_tail h1 b head
      let f ← deref front
      let h3 ← list_del h2 f
      let h4 ← list_add_tail h3 f head
      let nf ← deref (h4.next head)
      swap_loop fuel h4 head (h4.next head) (h4.next nf)
    else .ok h

/-- Function `q_swap` (queue.c 220-234). -/
def q_swap (fuel : Nat) (h : Heap) (head : Option Nat) : Except Err Heap := do
  let n ← q_size fuel h head
  if n < 2 then .ok h
  else do
    let hd ← deref head
    let f ← deref (h.next hd)
    swap_loop fuel h hd (h.next hd) (h.next f)

/-! ## `q_reverse` -/

/-- The `for` loop of `q_reverse` (queue.c 246-247). -/
def reverse_loop : Nat → Heap → Nat → Nat → Option Nat → Except Err Heap
  | 0, _, _, _, _ => .error .fuel
  | fuel + 1, h, head, tail, cur =>
    if cur ≠ some head then do
      let c ← deref cur
      let h1 ← list_move_tail h c head
      reverse_loop fuel h1 head tail (h1.prev tail)
    else .ok h

/-- Function `q_reverse` (queue.c 243-248). -/
def q_reverse (fuel : Nat) (h : Heap) (head : Option Nat) : Except Err Heap := do
  let hd ← deref head
  let tail ← deref (h.prev hd)
  reverse_loop fuel h hd tail (h.prev tail)

/-- The sample queue of texts `1, 1, 2, 3, 3, 3`, sorted ascending; `g` stands
for whatever bytes lie where `value` of the sentinel would be. -/
def sampleDup (g : List Nat) : Heap :=
  mkQueue 0 [1, 2, 3, 4, 5, 6]
    [(0, g), (1, [49]), (2, [49]), (3, [50]), (4, [51]), (5, [51]), (6, [51])]

/-! ## Abstraction predicates used by the proofs -/

/-- A `NULL`-terminated chain: `p` points to the first node of `xs` and the
`next` fields run through `xs` to `NULL`. -/
def Fwd (h : Heap) : Option Nat → List Nat → Prop
  | p, [] => p = none
  | p, x :: xs => p = some x ∧ Fwd h (h.next x) xs

/-- The `prev` fields along a chain: the first node of `xs` points back to
`p`, every later one to its predecessor in `xs`. -/
def Back (h : Heap) : Option Nat → List Nat → Prop
  | _, [] => True
  | p, x :: xs => h.prev x = p ∧ Back h (some x) xs

/-- The `prev` fields inside a chain, the one of its first node left open. -/
def BackTail (h : Heap) : List Nat → Prop
  | [] => True
  | x :: xs => Back h (some x) xs

/-- The order `merge_two_lists` sorts by, on node addresses: the left node is
taken unless its payload compares greater. -/
def nodeLe (val : Nat → List Nat) (a b : Nat) : Bool := !cmpGt (val a) (val b)

/-- What the walk of `q_delete_dup` has left of the elements `xs` when it
stops at the last one: an element that has a successor stays unless its
payload passes the test `dupEq` against the payload of that successor; the
last element is still linked. -/
def dupKeep (val : Nat → List Nat) : List Nat → List Nat
  | [] => []
  | [x] => [x]
  | x :: y :: rest =>
    if dupEq (val x) (val y) then dupKeep val (y :: rest)
    else x :: dupKeep val (y :: rest)

/-- The elements the walk of `q_delete_dup` has unlinked and released when it
stops at the last one, in the order of the walk. -/
def dupDrop (val : Nat → List Nat) : List Nat → List Nat
  | [] => []
  | [_] => []
  | x :: y :: rest =>
    if dupEq (val x) (val y) then x :: dupDrop val (y :: rest)
    else dupDrop val (y :: rest)

/-- The `n` bytes of the caller's memory from offset `lo` on. -/
def readBuf (m : Mem) (lo : Int) (n : Nat) : List Nat :=
  (List.range n).map (fun i => m (lo + (i : Int)))

/-- The bytes at offsets `lo ≤ i < lo + n` of the caller's memory after a removal. -/
def bufAfter (r : Except Err (Heap × Option Nat × Option Mem)) (lo : Int) (n : Nat) :
    Except Err (Option (List Nat)) := do
  let x ← r
  .ok (x.2.2.map (fun m => readBuf m lo n))

/-- The sample queue with the one text `hello`. -/
def sampleHello : Heap := mkQueue 0 [1] [(1, [104, 101, 108, 108, 111])]

/-- A caller's memory that holds the text `xy` at `sp` and zero bytes elsewhere. -/
def bufXY : Mem := fun i => if i = 0 then 120 else if i = 1 then 121 else 0

/-- Every element paired with its successor in the ring, the successor of the
last element being the sentinel `head`. -/
def dupPairs (head : Nat) : List Nat → List (Nat × Nat)
  | [] => []
  | x :: rest => (x, rest.head?.getD head) :: dupPairs head rest

/-- A text that `new_element` stores in full: no zero byte inside, bytes
below 256, and `strlen (s) + 1` within the range of `int`. -/
def TextOk (s : List Nat) : Prop := StrOk s ∧ s.length + 1 < 2147483648

instance (s : List Nat) : Decidable (TextOk s) := by
  unfold TextOk; infer_instance

/-- The order on node addresses by payload, in the standard lexicographic order. -/
def payloadLe (val : Nat → List Nat) (a b : Nat) : Bool := lexLe (val a) (val b)

/-- The sample queue `[b, a, b]`: two elements with equal payloads. -/
def sampleBAB : Heap := mkQueue 0 [1, 2, 3] [(1, [98]), (2, [97]), (3, [98])]

/-- The sample queue of the three texts `p`, `q`, `r` in the nodes 1, 2, 3. -/
def sample3 (p q r : List Nat) : Heap := mkQueue 0 [1, 2, 3] [(1, p), (2, q), (3, r)]

/-- The sample queue `[c, a, b]`. -/
def sampleCAB : Heap := mkQueue 0 [1, 2, 3] [(1, [99]), (2, [97]), (3, [98])]

/-- A caller's memory with a zero byte at `sp` and the byte 7 everywhere else,
in particular just before `sp`. -/
def bufZ7 : Mem := fun i => if i = 0 then 0 else 7

/-- The comparison in the words of the spec: `a` is strictly greater than `b`
in the standard lexicographic order over unsigned bytes, in which the first
differing byte decides and a proper initial segment is the smaller one. -/
def specGreater (a b : List Nat) : Prop := List.Lex (fun x y : Nat => x < y) b a

/-! ## Properties -/

theorem sampleCAB_wf : WfQueue sampleCAB 0 [1, 2, 3] :=
  ⟨⟨by decide, by simp [Linked, sampleCAB, mkQueue, List.lookup]⟩, by decide⟩

theorem sampleBAB_wf : WfQueue sampleBAB 0 [1, 2, 3] :=
  ⟨⟨by decide, by simp [Linked, sampleBAB, mkQueue, List.lookup]⟩, by decide⟩

@[simp] theorem setNext_next (h : Heap) (a : Nat) (v : Option Nat) (x : Nat) :
    (h.setNext a v).next x = if x = a then v else h.next x := rfl

@[simp] theorem setNext_prev (h : Heap) (a : Nat) (v : Option Nat) :
    (h.setNext a v).prev = h.prev := rfl

@[simp] theorem setNext_value (h : Heap) (a : Nat) (v : Option Nat) :
    (h.setNext a v).value = h.value := rfl

@[simp] theorem setNext_freed (h : Heap) (a : Nat) (v : Option Nat) :
    (h.setNext a v).freed = h.freed := rfl

@[simp] theorem setPrev_prev (h : Heap) (a : Nat) (v : Option Nat) (x : Nat) :
    (h.setPrev a v).prev x = if x = a then v else h.prev x := rfl

@[simp] theorem setPrev_next (h : Heap) (a : Nat) (v : Option Nat) :
    (h.setPrev a v).next = h.next := rfl

@[simp] theorem setPrev_value (h : Heap) (a : Nat) (v : Option Nat) :
    (h.setPrev a v).value = h.value := rfl

@[simp] theorem setPrev_freed (h : Heap) (a : Nat) (v : Option Nat) :
    (h.setPrev a v).freed = h.freed := rfl

theorem fwd_congr {h h' : Heap} : ∀ {xs : List Nat} {p : Option Nat},
    (∀ x ∈ xs, h'.next x = h.next x) → Fwd h p xs → Fwd h' p xs
  | [], _, _, hf => hf
  | x :: xs, _, hx, hf => by
    refine ⟨hf.1, ?_⟩
    rw [hx x (List.mem_cons_self _ _)]
    exact fwd_congr (fun y hy => hx y (List.mem_cons_of_mem _ hy)) hf.2

theorem back_congr {h h' : Heap} : ∀ {xs : List Nat} {p : Option Nat},
    (∀ x ∈ xs, h'.prev x = h.prev x) → Back h p xs → Back h' p xs
  | [], _, _, _ => trivial
  | x :: xs, _, hx, hb => by
    refine ⟨?_, back_congr (fun y hy => hx y (List.mem_cons_of_mem _ hy)) hb.2⟩
    rw [hx x (List.mem_cons_self _ _)]
    exact hb.1

theorem backTail_congr {h h' : Heap} {xs : List Nat}
    (hx : ∀ x ∈ xs.tail, h'.prev x = h.prev x) (hb : BackTail h xs) : BackTail h' xs := by
  cases xs with
  | nil => trivial
  | cons x xs => exact back_congr hx hb

theorem back_tail {h : Heap} {p : Option Nat} {xs : List Nat} (hb : Back h p xs) :
    BackTail h xs := by
  cases xs with
  | nil => trivial
  | cons x xs => exact hb.2

theorem loadLoc_storeLoc (h : Heap) (hd : Option Nat) (ptr : Loc) (v : Option Nat) :
    loadLoc (storeLoc h hd ptr v).1 (storeLoc h hd ptr v).2 ptr = v := by
  cases ptr <;> simp [loadLoc, storeLoc]

theorem storeLoc_next (h : Heap) (hd : Option Nat) (ptr : Loc) (v : Option Nat) (x : Nat)
    (hx : ptr ≠ .nextOf x) : (storeLoc h hd ptr v).1.next x = h.next x := by
  cases ptr with
  | headVar => rfl
  | nextOf p =>
    have : x ≠ p := fun hxp => hx (by rw [hxp])
    simp [storeLoc, this]

@[simp] theorem storeLoc_prev (h : Heap) (hd : Option Nat) (ptr : Loc) (v : Option Nat) :
    (storeLoc h hd ptr v).1.prev = h.prev := by
  cases ptr <;> rfl

@[simp] theorem storeLoc_value (h : Heap) (hd : Option Nat) (ptr : Loc) (v : Option Nat) :
    (storeLoc h hd ptr v).1.value = h.value := by
  cases ptr <;> rfl

@[simp] theorem storeLoc_freed (h : Heap) (hd : Option Nat) (ptr : Loc) (v : Option Nat) :
    (storeLoc h hd ptr v).1.freed = h.freed := by
  cases ptr <;> rfl

@[simp] theorem loadLoc_setPrev (h : Heap) (hd : Option Nat) (ptr : Loc) (y : Nat)
    (v : Option Nat) : loadLoc (h.setPrev y v) hd ptr = loadLoc h hd ptr := by
  cases ptr <;> rfl

theorem storeLoc_snd (h : Heap) (hd : Option Nat) (p : Nat) (v : Option Nat) :
    (storeLoc h hd (.nextOf p) v).2 = hd := rfl

/-- The last two statements of `merge_two_lists`, run on a non-empty rest `x :: xs`. -/
theorem merge_tail_spec (h : Heap) (hd : Option Nat) (ptr : Loc) (pprev : Option Nat)
    (x : Nat) (xs : List Nat) (hf : Fwd h (h.next x) xs) (hb : Back h (some x) xs)
    (hnd : (x :: xs).Nodup) (hptr : ∀ y ∈ x :: xs, ptr ≠ .nextOf y) :
    Fwd ((storeLoc h hd ptr (some x)).1.setPrev x pprev)
      (loadLoc ((storeLoc h hd ptr (some x)).1.setPrev x pprev) (storeLoc h hd ptr (some x)).2 ptr)
      (x :: xs) ∧
    Back ((storeLoc h hd ptr (some x)).1.setPrev x pprev) pprev (x :: xs) := by
  have hload : loadLoc ((storeLoc h hd ptr (some x)).1.setPrev x pprev)
      (storeLoc h hd ptr (some x)).2 ptr = some x := by
    cases ptr <;> simp [loadLoc, storeLoc]
  refine ⟨⟨hload, ?_⟩, ⟨by simp, ?_⟩⟩
  · rw [setPrev_next, storeLoc_next _ _ _ _ _ (hptr x (List.mem_cons_self _ _))]
    refine fwd_congr ?_ hf
    intro y hy
    rw [setPrev_next, storeLoc_next _ _ _ _ _ (hptr y (List.mem_cons_of_mem _ hy))]
  · refine back_congr ?_ hb
    intro y hy
    have : y ≠ x := fun hyx => (List.nodup_cons.1 hnd).1 (hyx ▸ hy)
    simp [this]

theorem merge_loop_spec (val : Nat → List Nat) : ∀ (fuel : Nat) (ls rs : List Nat) (h : Heap)
    (hd : Option Nat) (ptr : Loc) (pprev l r : Option Nat),
    ls.length + rs.length ≤ fuel → h.value = val →
    Fwd h l ls → Fwd h r rs → BackTail h ls → BackTail h rs →
    (ls ++ rs).Nodup → (ls ≠ [] ∨ rs ≠ []) →
    (∀ x ∈ ls ++ rs, ptr ≠ .nextOf x) →
    ∃ h' hd', merge_loop fuel h hd ptr pprev l r = .ok (h', hd') ∧
      Fwd h' (loadLoc h' hd' ptr) (List.merge ls rs (nodeLe val)) ∧
      Back h' pprev (List.merge ls rs (nodeLe val)) ∧
      (∀ p, ptr = .nextOf p → hd' = hd) ∧
      h'.value = val ∧ h'.freed = h.freed ∧
      (∀ a, a ∉ ls ++ rs → h'.prev a = h.prev a) ∧
      (∀ a, a ∉ ls ++ rs → ptr ≠ .nextOf a → h'.next a = h.next a) := by
  intro fuel
  induction fuel with
  | zero =>
    intro ls rs h hd ptr pprev l r hlen _ _ _ _ _ _ hne _
    have h1 : ls = [] := List.eq_nil_of_length_eq_zero (by omega)
    have h2 : rs = [] := List.eq_nil_of_length_eq_zero (by omega)
    rcases hne with hne | hne
    · exact absurd h1 hne
    · exact absurd h2 hne
  | succ fuel ih =>
    intro ls rs h hd ptr pprev l r hlen hval hl hr hbl hbr hnd hne hptr
    cases ls with
    | nil =>
      cases rs with
      | nil => simp at hne
      | cons b rs =>
        obtain ⟨rfl, hr2⟩ := hr
        have hl0 : l = none := hl
        subst hl0
        have hsp := merge_tail_spec h hd ptr pprev b rs hr2 hbr (by simpa using hnd)
          (by simpa using hptr)
        refine ⟨(storeLoc h hd ptr (some b)).1.setPrev b pprev, (storeLoc h hd ptr (some b)).2,
          ?_, ?_, ?_, ?_, ?_, ?_, ?_, ?_⟩
        · simp [merge_loop, loadLoc_storeLoc]
        · simpa only [List.nil_merge] using hsp.1
        · simpa only [List.nil_merge] using hsp.2
        · intro p hp; subst hp; rfl
        · simp [hval]
        · simp
        · intro a ha
          have : a ≠ b := fun hab => ha (by simp [hab])
          simp [this]
        · intro a _ hpa
          rw [setPrev_next, storeLoc_next _ _ _ _ _ hpa]
    | cons a ls =>
      obtain ⟨rfl, hl2⟩ := hl
      cases rs with
      | nil =>
        have hr0 : r = none := hr
        subst hr0
        have hsp := merge_tail_spec h hd ptr pprev a ls hl2 hbl (by simpa using hnd)
          (by simpa using hptr)
        refine ⟨(storeLoc h hd ptr (some a)).1.setPrev a pprev, (storeLoc h hd ptr (some a)).2,
          ?_, ?_, ?_, ?_, ?_, ?_, ?_, ?_⟩
        · simp [merge_loop, loadLoc_storeLoc]
        · simpa only [List.merge_right] using hsp.1
        · simpa only [List.merge_right] using hsp.2
        · intro p hp; subst hp; rfl
        · simp [hval]
        · simp
        · intro x hx
          have : x ≠ a := fun hxa => hx (by simp [hxa])
          simp [this]
        · intro x _ hpx
          rw [setPrev_next, storeLoc_next _ _ _ _ _ hpx]
      | cons b rs =>
        obtain ⟨rfl, hr2⟩ := hr
        have hnd' : (a :: ls).Nodup ∧ (b :: rs).Nodup ∧ ∀ x ∈ a :: ls, ∀ y ∈ b :: rs, x ≠ y := by
          have := List.nodup_append.1 hnd
          exact ⟨this.1, this.2.1, fun x hx y hy hxy => this.2.2 hx (hxy ▸ hy)⟩
        obtain ⟨hnda, hndb, hdisj⟩ := hnd'
        cases hc : cmpGt (h.value a) (h.value b) with
        | false =>
          have hn2 : ∀ y ∈ (a :: ls) ++ (b :: rs),
              ((storeLoc h hd ptr (some a)).1.setPrev a pprev).next y = h.next y := fun y hy => by
            rw [setPrev_next, storeLoc_next _ _ _ _ _ (hptr y hy)]
          have hp2 : ∀ y, y ≠ a →
              ((storeLoc h hd ptr (some a)).1.setPrev a pprev).prev y = h.prev y := fun y hy => by
            simp [hy]
          have hstep : merge_loop (fuel + 1) h hd ptr pprev (some a) (some b) =
              merge_loop fuel ((storeLoc h hd ptr (some a)).1.setPrev a pprev)
                (storeLoc h hd ptr (some a)).2 (.nextOf a) (some a) (h.next a) (some b) := by
            have := hn2 a (by simp)
            simp only [setPrev_next] at this
            simp [merge_loop, hc, loadLoc_storeLoc, this]
          have hanot : a ∉ ls ++ b :: rs := by
            intro ha
            rcases List.mem_append.1 ha with ha | ha
            · exact (List.nodup_cons.1 hnda).1 ha
            · exact hdisj a (by simp) a ha rfl
          obtain ⟨h', hd', hrun, hf', hb', hhd', hv', hfr', hpv', hnx'⟩ :=
            ih ls (b :: rs) ((storeLoc h hd ptr (some a)).1.setPrev a pprev)
              (storeLoc h hd ptr (some a)).2 (.nextOf a) (some a) (h.next a) (some b)
              (by simp at hlen ⊢; omega) (by simp [hval])
              (fwd_congr (fun y hy => hn2 y (by simp [hy])) hl2)
              (fwd_congr (fun y hy => hn2 y (by simp [hy])) (show Fwd h (some b) (b :: rs) from ⟨rfl, hr2⟩))
              (backTail_congr (fun y hy => hp2 y (fun hya => (List.nodup_cons.1 hnda).1
                (hya ▸ List.mem_of_mem_tail hy))) (back_tail hbl))
              (backTail_congr (fun y hy => hp2 y (fun hya => hdisj a (by simp) y
                (List.mem_of_mem_tail hy) hya.symm)) (show BackTail h (b :: rs) from hbr))
              (by
                have := hnd
                simp only [List.cons_append, List.nodup_cons] at this
                exact this.2)
              (Or.inr (by simp))
              (by
                intro x hx hxa
                injection hxa with hxa
                exact hanot (hxa ▸ hx))
          have hle : nodeLe val a b = true := by simp [nodeLe, ← hval, hc]
          refine ⟨h', hd', by rw [hstep, hrun], ?_, ?_, ?_, hv', ?_, ?_, ?_⟩
          · rw [List.cons_merge_cons_pos _ _ _ hle]
            refine ⟨?_, hf'⟩
            cases ptr with
            | headVar => simpa [loadLoc, storeLoc] using hhd' a rfl
            | nextOf p =>
              have hpa : p ≠ a := fun hpa => hptr a (by simp) (by rw [hpa])
              have hp : p ∉ ls ++ b :: rs := fun hp => hptr p (by
                simp only [List.cons_append, List.mem_cons]; exact Or.inr hp) rfl
              have := hnx' p hp (by simp [hpa.symm])
              simp only [loadLoc]
              rw [this]
              simp [storeLoc, hpa]
          · rw [List.cons_merge_cons_pos _ _ _ hle]
            refine ⟨?_, hb'⟩
            rw [hpv' a hanot]; simp
          · intro p hp
            rw [hhd' a rfl]; subst hp; rfl
          · rw [hfr']; simp
          · intro x hx
            have hxa : x ≠ a := fun hxa => hx (by simp [hxa])
            rw [hpv' x (fun hx' => hx (by
              simp only [List.cons_append, List.mem_cons]; exact Or.inr hx')), hp2 x hxa]
          · intro x hx hpx
            have hxa : x ≠ a := fun hxa => hx (by simp [hxa])
            rw [hnx' x (fun hx' => hx (by
              simp only [List.cons_append, List.mem_cons]; exact Or.inr hx'))
              (by simp [Ne.symm hxa]), setPrev_next, storeLoc_next _ _ _ _ _ hpx]
        | true =>
          have hn2 : ∀ y ∈ (a :: ls) ++ (b :: rs),
              ((storeLoc h hd ptr (some b)).1.setPrev b pprev).next y = h.next y := fun y hy => by
            rw [setPrev_next, storeLoc_next _ _ _ _ _ (hptr y hy)]
          have hp2 : ∀ y, y ≠ b →
              ((storeLoc h hd ptr (some b)).1.setPrev b pprev).prev y = h.prev y := fun y hy => by
            simp [hy]
          have hstep : merge_loop (fuel + 1) h hd ptr pprev (some a) (some b) =
              merge_loop fuel ((storeLoc h hd ptr (some b)).1.setPrev b pprev)
                (storeLoc h hd ptr (some b)).2 (.nextOf b) (some b) (some a) (h.next b) := by
            have := hn2 b (by simp)
            simp only [setPrev_next] at this
            simp [merge_loop, hc, loadLoc_storeLoc, this]
          have hbnot : b ∉ (a :: ls) ++ rs := by
            intro hb
            rcases List.mem_append.1 hb with hb | hb
            · exact hdisj b hb b (by simp) rfl
            · exact (List.nodup_cons.1 hndb).1 hb
          have hsub : ∀ x, x ∈ (a :: ls) ++ rs → x ∈ (a :: ls) ++ (b :: rs) := fun x hx => by
            rcases List.mem_append.1 hx with hx | hx
            · exact List.mem_append_left _ hx
            · exact List.mem_append_right _ (List.mem_cons_of_mem _ hx)
          obtain ⟨h', hd', hrun, hf', hb', hhd', hv', hfr', hpv', hnx'⟩ :=
            ih (a :: ls) rs ((storeLoc h hd ptr (some b)).1.setPrev b pprev)
              (storeLoc h hd ptr (some b)).2 (.nextOf b) (some b) (some a) (h.next b)
              (by simp at hlen ⊢; omega) (by simp [hval])
              (fwd_congr (fun y hy => hn2 y (List.mem_append_left _ hy))
                (show Fwd h (some a) (a :: ls) from ⟨rfl, hl2⟩))
              (fwd_congr (fun y hy => hn2 y (List.mem_append_right _ (List.mem_cons_of_mem _ hy))) hr2)
              (backTail_congr (fun y hy => hp2 y (fun hyb => hdisj y
                (List.mem_of_mem_tail hy) b (by simp) hyb)) (show BackTail h (a :: ls) from hbl))
              (backTail_congr (fun y hy => hp2 y (fun hyb => (List.nodup_cons.1 hndb).1
                (hyb ▸ List.mem_of_mem_tail hy))) (back_tail hbr))
              (by
                have := List.nodup_append.1 hnd
                refine List.nodup_append.2 ⟨this.1, (List.nodup_cons.1 this.2.1).2, ?_⟩
                intro x hx hx'
                exact this.2.2 hx (List.mem_cons_of_mem _ hx'))
              (Or.inl (by simp))
              (by
                intro x hx hxb
                injection hxb with hxb
                exact hbnot (hxb ▸ hx))
          have hle : ¬ (nodeLe val a b = true) := by simp [nodeLe, ← hval, hc]
          refine ⟨h', hd', by rw [hstep, hrun], ?_, ?_, ?_, hv', ?_, ?_, ?_⟩
          · rw [List.cons_merge_cons_neg _ _ _ hle]
            refine ⟨?_, hf'⟩
            cases ptr with
            | headVar => simpa [loadLoc, storeLoc] using hhd' b rfl
            | nextOf p =>
              have hpb : p ≠ b := fun hpb => hptr b (by simp) (by rw [hpb])
              have hp : p ∉ (a :: ls) ++ rs := fun hp => hptr p (hsub p hp) rfl
              have := hnx' p hp (by simp [hpb.symm])
              simp only [loadLoc]
              rw [this]
              simp [storeLoc, hpb]
          · rw [List.cons_merge_cons_neg _ _ _ hle]
            refine ⟨?_, hb'⟩
            rw [hpv' b hbnot]; simp
          · intro p hp
            rw [hhd' b rfl]; subst hp; rfl
          · rw [hfr']; simp
          · intro x hx
            have hxb : x ≠ b := fun hxb => hx (by simp [hxb])
            rw [hpv' x (fun hx' => hx (hsub x hx')), hp2 x hxb]
          · intro x hx hpx
            have hxb : x ≠ b := fun hxb => hx (by simp [hxb])
            rw [hnx' x (fun hx' => hx (hsub x hx'))
              (by simp [Ne.symm hxb]), setPrev_next, storeLoc_next _ _ _ _ _ hpx]

theorem fwd_head {h : Heap} {p : Option Nat} {xs : List Nat} (hf : Fwd h p xs) :
    p = xs[0]? := by
  cases xs with
  | nil => exact hf
  | cons x xs => simpa using hf.1

theorem fwd_next_getElem? {h : Heap} : ∀ {xs : List Nat} {p : Option Nat}, Fwd h p xs →
    ∀ (i a : Nat), xs[i]? = some a → h.next a = xs[i + 1]?
  | [], _, _, i, a, hi => by simp at hi
  | x :: xs, _, hf, 0, a, hi => by
    simp only [List.getElem?_cons_zero, Option.some.injEq] at hi
    subst hi
    simpa using (fwd_head hf.2)
  | x :: xs, _, hf, i + 1, a, hi => by
    simp only [List.getElem?_cons_succ] at hi ⊢
    exact fwd_next_getElem? hf.2 i a hi

theorem slow_fast_spec {h : Heap} {p : Option Nat} {xs : List Nat} (hf : Fwd h p xs) :
    ∀ (fuel i : Nat), 2 * i + 1 ≤ xs.length → xs.length ≤ 2 * i + fuel →
      slow_fast fuel h xs[i]? xs[2 * i + 1]? = .ok xs[(xs.length - 1) / 2]? := by
  intro fuel
  induction fuel with
  | zero => intro i h1 h2; omega
  | succ fuel ih =>
    intro i h1 h2
    unfold slow_fast
    cases hfast : xs[2 * i + 1]? with
    | none =>
      have : xs.length ≤ 2 * i + 1 := List.getElem?_eq_none_iff.1 hfast
      have : (xs.length - 1) / 2 = i := by omega
      simp [this]
    | some f =>
      have hnf := fwd_next_getElem? hf _ _ hfast
      simp only
      cases hf1 : h.next f with
      | none =>
        rw [hf1] at hnf
        have : xs.length ≤ 2 * i + 1 + 1 := List.getElem?_eq_none_iff.1 hnf.symm
        have : (xs.length - 1) / 2 = i := by omega
        simp [this]
      | some f1 =>
        rw [hf1] at hnf
        have hlt : 2 * i + 1 + 1 < xs.length := by
          by_contra hcon
          have := List.getElem?_eq_none_iff.2 (Nat.le_of_not_lt hcon)
          rw [this] at hnf; cases hnf
        have hi : i < xs.length := by omega
        have hs : xs[i]? = some xs[i] := List.getElem?_eq_getElem hi
        have hns := fwd_next_getElem? hf _ _ hs
        have hnf1 := fwd_next_getElem? hf _ _ hnf.symm
        have := ih (i + 1) (by omega) (by omega)
        simp only [hs, deref, bind, Except.bind, hns, hnf1]
        rw [← this]
        congr 2

theorem fwd_split {h : Heap} (s : Nat) (B : List Nat) : ∀ (A : List Nat) (p : Option Nat),
    Fwd h p (A ++ s :: B) → (A ++ s :: B).Nodup →
    Fwd (h.setNext s none) p (A ++ [s]) ∧ Fwd (h.setNext s none) (h.next s) B
  | [], p, hf, hnd => by
    have hsB : s ∉ B := (List.nodup_cons.1 hnd).1
    refine ⟨⟨hf.1, by simp [Fwd]⟩, fwd_congr ?_ hf.2⟩
    intro y hy
    have : y ≠ s := fun hys => hsB (hys ▸ hy)
    simp [this]
  | x :: A, p, hf, hnd => by
    have hxs : x ≠ s := fun hxs => (List.nodup_cons.1 hnd).1 (by simp [hxs])
    have ih := fwd_split s B A (h.next x) hf.2 (List.nodup_cons.1 hnd).2
    refine ⟨⟨hf.1, ?_⟩, ih.2⟩
    simpa [hxs] using ih.1

theorem mergeSort_split {α : Type} (le : α → α → Bool) : ∀ (l : List α), 2 ≤ l.length →
    l.mergeSort le = List.merge ((l.take ((l.length + 1) / 2)).mergeSort le)
      ((l.drop ((l.length + 1) / 2)).mergeSort le) le
  | [], hl => by simp at hl
  | [_], hl => by simp at hl
  | a :: b :: xs, _ => by
    rw [List.mergeSort]
    simp only [List.splitInTwo_fst, List.splitInTwo_snd, List.length_cons]

theorem mergesort_list_spec (val : Nat → List Nat) : ∀ (fuel : Nat) (xs : List Nat) (h : Heap)
    (node : Option Nat), xs.length < fuel → h.value = val → Fwd h node xs → xs.Nodup →
    ∃ h' node', mergesort_list fuel h node = .ok (h', node') ∧
      Fwd h' node' (xs.mergeSort (nodeLe val)) ∧ BackTail h' (xs.mergeSort (nodeLe val)) ∧
      h'.value = val ∧ h'.freed = h.freed ∧
      (∀ a, a ∉ xs → h'.next a = h.next a ∧ h'.prev a = h.prev a) := by
  intro fuel
  induction fuel with
  | zero => intro xs h node hlen; omega
  | succ fuel ih =>
    intro xs h node hlen hval hf hnd
    by_cases hn : xs.length < 2
    · -- at most one node: returned as it is
      rcases xs with _ | ⟨a, _ | ⟨b, rest⟩⟩
      · have : node = none := hf
        subst this
        exact ⟨h, none, by simp [mergesort_list], by simp [Fwd], by simp [BackTail], hval, rfl,
          fun _ _ => ⟨rfl, rfl⟩⟩
      · obtain ⟨rfl, hf2⟩ := hf
        have hna : h.next a = none := hf2
        exact ⟨h, some a, by simp [mergesort_list, hna], by simp [Fwd, hna], by simp [BackTail, Back],
          hval, rfl, fun _ _ => ⟨rfl, rfl⟩⟩
      · simp only [List.length_cons] at hn; omega
    · have hn2 : 2 ≤ xs.length := Nat.le_of_not_lt hn
      obtain ⟨k, hkdef⟩ : ∃ k, k = (xs.length - 1) / 2 := ⟨_, rfl⟩
      have hk : k < xs.length := by omega
      have hk1 : k + 1 < xs.length := by omega
      have hkk : (xs.length + 1) / 2 = k + 1 := by omega
      obtain ⟨a, h0⟩ : ∃ a, xs[0]? = some a := ⟨_, List.getElem?_eq_getElem (by omega)⟩
      obtain ⟨b, h1⟩ : ∃ b, xs[1]? = some b := ⟨_, List.getElem?_eq_getElem (by omega)⟩
      obtain ⟨s, hs⟩ : ∃ s, xs[k]? = some s := ⟨_, List.getElem?_eq_getElem hk⟩
      obtain ⟨m, hm⟩ : ∃ m, xs[k + 1]? = some m := ⟨_, List.getElem?_eq_getElem hk1⟩
      have hnode : node = some a := by rw [← h0]; exact (fwd_head hf)
      have hnx0 : h.next a = some b := by rw [← h1]; exact fwd_next_getElem? hf 0 _ h0
      have hsf := slow_fast_spec hf (fuel + 1) 0 (by omega) (by omega)
      rw [h0, show 2 * 0 + 1 = 1 from rfl, h1, ← hkdef, hs] at hsf
      have hmid : h.next s = some m := by rw [fwd_next_getElem? hf _ _ hs, hm]
      -- the cut
      have hxs : xs = xs.take k ++ s :: xs.drop (k + 1) := by
        obtain ⟨hk', hs'⟩ := List.getElem?_eq_some.1 hs
        rw [← hs', List.getElem_cons_drop, List.take_append_drop]
      have htk : xs.take (k + 1) = xs.take k ++ [s] := by
        rw [List.take_succ, hs]; rfl
      have hcut := fwd_split s (xs.drop (k + 1)) (xs.take k) node
        (by rw [← hxs]; exact hf) (by rw [← hxs]; exact hnd)
      rw [← htk, hmid] at hcut
      have hLR : xs.take (k + 1) ++ xs.drop (k + 1) = xs := List.take_append_drop _ _
      have hndLR := hnd
      rw [← hLR] at hndLR
      obtain ⟨hndL, hndR, hdisj⟩ := List.nodup_append.1 hndLR
      have hmemL : ∀ y, y ∈ xs.take (k + 1) → y ∈ xs := fun y hy => List.mem_of_mem_take hy
      have hmemR : ∀ y, y ∈ xs.drop (k + 1) → y ∈ xs := fun y hy => List.mem_of_mem_drop hy
      have hsmem : s ∈ xs := List.getElem?_mem hs
      have hmmem : m ∈ xs := List.getElem?_mem hm
      -- left half
      obtain ⟨h3, left, hrunL, hfL, hbL, hvL, hfrL, hframeL⟩ :=
        ih (xs.take (k + 1)) ((h.setNext s none).setPrev m none) node
          (by rw [List.length_take]; omega) (by simp [hval])
          (@fwd_congr (h.setNext s none) _ _ _ (fun _ _ => rfl) hcut.1) hndL
      -- right half
      obtain ⟨h4, right, hrunR, hfR, hbR, hvR, hfrR, hframeR⟩ :=
        ih (xs.drop (k + 1)) h3 (some m)
          (by rw [List.length_drop]; omega) hvL
          (fwd_congr (fun y hy => by
            rw [(hframeL y (fun hyL => hdisj hyL hy)).1]; rfl) hcut.2) hndR
      have hfL4 : Fwd h4 left ((xs.take (k + 1)).mergeSort (nodeLe val)) :=
        fwd_congr (fun y hy => (hframeR y (fun hyR => hdisj (List.mem_mergeSort.1 hy) hyR)).1) hfL
      have hbL4 : BackTail h4 ((xs.take (k + 1)).mergeSort (nodeLe val)) :=
        backTail_congr (fun y hy => (hframeR y (fun hyR =>
          hdisj (List.mem_mergeSort.1 (List.mem_of_mem_tail hy)) hyR)).2) hbL
      -- merge
      have hpermLR : ((xs.take (k + 1)).mergeSort (nodeLe val) ++
          (xs.drop (k + 1)).mergeSort (nodeLe val)).Perm xs := by
        have := (List.mergeSort_perm (xs.take (k + 1)) (nodeLe val)).append
          (List.mergeSort_perm (xs.drop (k + 1)) (nodeLe val))
        rwa [hLR] at this
      obtain ⟨h5, hd5, hrunM, hfM, hbM, -, hvM, hfrM, hpvM, hnxM⟩ :=
        merge_loop_spec val (fuel + 1) ((xs.take (k + 1)).mergeSort (nodeLe val))
          ((xs.drop (k + 1)).mergeSort (nodeLe val)) h4 none .headVar none left right
          (by rw [List.length_mergeSort, List.length_mergeSort, List.length_take,
                List.length_drop]; omega)
          hvR hfL4 hfR hbL4 hbR (hpermLR.nodup_iff.2 hnd)
          (Or.inl (fun hnil => by
            have := congrArg List.length hnil
            simp only [List.length_mergeSort, List.length_take, List.length_nil] at this
            omega))
          (fun _ _ hc => by cases hc)
      subst hnode
      refine ⟨h5, hd5, ?_, ?_, ?_, hvM, ?_, ?_⟩
      · simp [mergesort_list, hnx0, hsf, deref, hmid, hrunL, hrunR, merge_two_lists, hrunM,
          bind, Except.bind]
      · rw [mergeSort_split _ xs hn2, hkk]
        exact hfM
      · rw [mergeSort_split _ xs hn2, hkk]
        exact (back_tail hbM)
      · rw [hfrM, hfrR, hfrL]; rfl
      · intro y hy
        have hyL : y ∉ xs.take (k + 1) := fun h' => hy (hmemL y h')
        have hyR : y ∉ xs.drop (k + 1) := fun h' => hy (hmemR y h')
        have hyM : y ∉ (xs.take (k + 1)).mergeSort (nodeLe val) ++
            (xs.drop (k + 1)).mergeSort (nodeLe val) := fun h' => hy (hpermLR.mem_iff.1 h')
        have hys : y ≠ s := fun h' => hy (h' ▸ hsmem)
        have hym : y ≠ m := fun h' => hy (h' ▸ hmmem)
        refine ⟨?_, ?_⟩
        · rw [hnxM y hyM (fun hc => by cases hc), (hframeR y hyR).1, (hframeL y hyL).1]
          simp [hys]
        · rw [hpvM y hyM, (hframeR y hyR).2, (hframeL y hyL).2]
          simp [hym]

theorem chain_frame {h h' : Heap} : ∀ {l : List Nat}, List.Chain' (Linked h) l →
    (∀ u ∈ l.dropLast, h'.next u = h.next u) → (∀ v ∈ l.tail, h'.prev v = h.prev v) →
    List.Chain' (Linked h') l
  | [], _, _, _ => List.chain'_nil
  | [_], _, _, _ => List.chain'_singleton _
  | a :: b :: rest, hc, hn, hp => by
    rw [List.chain'_cons] at hc ⊢
    refine ⟨⟨?_, ?_⟩, chain_frame hc.2 ?_ ?_⟩
    · rw [hn a (by simp)]; exact hc.1.1
    · rw [hp b (by simp)]; exact hc.1.2
    · intro u hu
      exact hn u (by rw [List.dropLast_cons₂]; exact List.mem_cons_of_mem _ hu)
    · intro v hv
      exact hp v (List.mem_cons_of_mem _ hv)

theorem chain_fwd_cut {h : Heap} (t : Nat) : ∀ (xs : List Nat) (f : Nat),
    List.Chain' (Linked h) (f :: xs) → (f :: xs).Nodup → (f :: xs).getLast? = some t →
    Fwd (h.setNext t none) (some f) (f :: xs)
  | [], f, _, _, hl => by
    simp only [List.getLast?_singleton, Option.some.injEq] at hl
    subst hl
    simp [Fwd]
  | x :: xs, f, hc, hnd, hl => by
    rw [List.chain'_cons] at hc
    rw [List.getLast?_cons_cons] at hl
    have htm : t ∈ x :: xs := List.mem_of_mem_getLast? hl
    have hft : f ≠ t := fun hft => (List.nodup_cons.1 hnd).1 (hft ▸ htm)
    refine ⟨rfl, ?_⟩
    rw [setNext_next, if_neg hft, hc.1.1]
    exact chain_fwd_cut t xs x hc.2 (List.nodup_cons.1 hnd).2 hl

theorem chain_of_fwd_back {h : Heap} : ∀ (zs : List Nat) (p : Option Nat),
    Fwd h p zs → BackTail h zs → List.Chain' (Linked h) zs
  | [], _, _, _ => List.chain'_nil
  | [_], _, _, _ => List.chain'_singleton _
  | a :: b :: rest, _, hf, hb =>
    List.chain'_cons.2 ⟨⟨hf.2.1, hb.1⟩, chain_of_fwd_back (b :: rest) (h.next a) hf.2 hb.2⟩

theorem last_loop_spec {h : Heap} (t : Nat) : ∀ (fuel : Nat) (xs : List Nat) (a : Nat),
    Fwd h (some a) (a :: xs) → (a :: xs).getLast? = some t → xs.length < fuel →
    last_loop fuel h a = .ok t := by
  intro fuel
  induction fuel with
  | zero => intro xs a _ _ hlen; omega
  | succ fuel ih =>
    intro xs a hf hl hlen
    cases xs with
    | nil =>
      have hna : h.next a = none := hf.2
      simp only [List.getLast?_singleton, Option.some.injEq] at hl
      subst hl
      simp [last_loop, hna]
    | cons x xs =>
      have hna : h.next a = some x := hf.2.1
      rw [List.getLast?_cons_cons] at hl
      have := ih xs x (by rw [← hna]; exact hf.2) hl (by simpa using hlen)
      simp [last_loop, hna, this]

theorem ne_last_of_mem_dropLast {zs : List Nat} {t u : Nat} (hnd : zs.Nodup)
    (hl : zs.getLast? = some t) (hu : u ∈ zs.dropLast) : u ≠ t := by
  have hzs : zs.dropLast ++ [t] = zs := List.dropLast_append_getLast? t hl
  rw [← hzs] at hnd
  intro hut
  exact (List.nodup_append.1 hnd).2.2 hu (by simp [hut])

theorem ne_head_of_mem_tail {zs : List Nat} {f v : Nat} (hnd : zs.Nodup)
    (hh : zs.head? = some f) (hv : v ∈ zs.tail) : v ≠ f := by
  cases zs with
  | nil => simp at hh
  | cons z zs =>
    simp only [List.head?_cons, Option.some.injEq] at hh
    subst hh
    intro hvz
    exact (List.nodup_cons.1 hnd).1 (hvz ▸ hv)

/-- Lines 308-311 of `q_sort`: closing a sorted chain into a ring again. -/
theorem reattach_ring (h : Heap) (head f t : Nat) (zs : List Nat)
    (hf : Fwd h (some f) zs) (hb : BackTail h zs) (hnd : (head :: zs).Nodup)
    (hh : zs.head? = some f) (hl : zs.getLast? = some t) :
    Ring ((((h.setNext head (some f)).setPrev head (some t)).setPrev f (some head)).setNext t
      (some head)) head zs := by
  have hfm : f ∈ zs := List.mem_of_mem_head? hh
  have htm : t ∈ zs := List.mem_of_mem_getLast? hl
  have hhz : head ∉ zs := (List.nodup_cons.1 hnd).1
  have hzn : zs.Nodup := (List.nodup_cons.1 hnd).2
  have hhf : head ≠ f := fun e => hhz (e ▸ hfm)
  have hht : head ≠ t := fun e => hhz (e ▸ htm)
  refine ⟨hnd, ?_⟩
  rw [List.chain'_cons', List.chain'_append]
  refine ⟨?_, ?_, List.chain'_singleton _, ?_⟩
  · intro y hy
    simp only [List.head?_append, hh, Option.or, Option.mem_def, Option.some.injEq] at hy
    subst hy
    simp [Linked, hht]
  · refine chain_frame (chain_of_fwd_back zs _ hf hb) ?_ ?_
    · intro u hu
      have h1 : u ≠ t := ne_last_of_mem_dropLast hzn hl hu
      have h2 : u ≠ head := fun e => hhz (e ▸ List.mem_of_mem_dropLast hu)
      simp [h1, h2]
    · intro v hv
      have h1 : v ≠ f := ne_head_of_mem_tail hzn hh hv
      have h2 : v ≠ head := fun e => hhz (e ▸ List.mem_of_mem_tail hv)
      simp [h1, h2]
  · intro x hx y hy
    simp only [hl, Option.mem_def, Option.some.injEq, List.head?_cons] at hx hy
    subst hx; subst hy
    simp [Linked, hhf]

theorem ring_nil_iff {h : Heap} {head : Nat} :
    Ring h head [] ↔ h.next head = some head ∧ h.prev head = some head := by
  simp [Ring, Linked]

theorem ring_cons_elim {h : Heap} {head f : Nat} {rest : List Nat}
    (hr : Ring h head (f :: rest)) :
    ∃ t, (f :: rest).getLast? = some t ∧ h.next head = some f ∧ h.prev f = some head ∧
      h.next t = some head ∧ h.prev head = some t ∧ List.Chain' (Linked h) (f :: rest) := by
  obtain ⟨_, hc⟩ := hr
  rw [List.cons_append, List.chain'_cons, ← List.cons_append, List.chain'_append] at hc
  obtain ⟨t, ht⟩ : ∃ t, (f :: rest).getLast? = some t := by
    cases hgl : (f :: rest).getLast? with
    | none => simp at hgl
    | some t => exact ⟨t, rfl⟩
  have hlast := hc.2.2.2 t ht head (by simp)
  exact ⟨t, ht, hc.1.1, hc.1.2, hlast.1, hlast.2, hc.2.1⟩

theorem q_sort_spec (h : Heap) (head : Nat) (xs : List Nat) (fuel : Nat)
    (hr : Ring h head xs) (hfuel : xs.length + 2 ≤ fuel) :
    ∃ h', q_sort fuel h (some head) = .ok h' ∧
      Ring h' head (xs.mergeSort (nodeLe h.value)) ∧ h'.value = h.value ∧
      h'.freed = h.freed ∧
      ∀ a, a ∉ head :: xs → h'.next a = h.next a ∧ h'.prev a = h.prev a := by
  cases xs with
  | nil =>
    obtain ⟨hn, hp⟩ := ring_nil_iff.1 hr
    obtain ⟨h5, node, hrun, hf5, -, hv5, hfr5, hframe5⟩ :=
      mergesort_list_spec h.value fuel [head]
        ((((h.setNext head none).setPrev head none).setPrev head none).setNext head none)
        (some head) (by simpa using hfuel) rfl (by simp [Fwd]) (by simp)
    rw [List.mergeSort_singleton] at hf5
    obtain ⟨rfl, hn5⟩ := hf5
    have hlast := last_loop_spec head fuel [] head ⟨rfl, hn5⟩ rfl (by simp; omega)
    refine ⟨(((h5.setNext head (some head)).setPrev head (some head)).setPrev head
      (some head)).setNext head (some head), ?_, ?_, ?_, ?_, ?_⟩
    rotate_left
    · rw [List.mergeSort_nil]
      refine ring_nil_iff.2 ⟨?_, ?_⟩ <;> simp
    · simp [hv5]
    · simp [hfr5]
    · intro a ha
      have hah : a ≠ head := fun e => ha (by simp [e])
      obtain ⟨e1, e2⟩ := hframe5 a (by simpa using hah)
      simp [hah, e1, e2]
    · simp [q_sort, hn, hp, deref, bind, Except.bind, hrun, hlast]
  | cons f rest =>
    obtain ⟨t, ht, hnf, hpf, hnt, hpt, hc⟩ := (ring_cons_elim hr)
    have hnd := hr.1
    have hzn : (f :: rest).Nodup := (List.nodup_cons.1 hnd).2
    have hhz : head ∉ f :: rest := (List.nodup_cons.1 hnd).1
    have hcut := chain_fwd_cut t rest f hc hzn ht
    obtain ⟨h5, node, hrun, hf5, hb5, hv5, hfr5, hframe5⟩ :=
      mergesort_list_spec h.value fuel (f :: rest)
        ((((h.setNext t none).setPrev head none).setPrev f none).setNext head none)
        (some f) (by simp at hfuel ⊢; omega) rfl
        (fwd_congr (fun y hy => by
          have : y ≠ head := fun e => hhz (e ▸ hy)
          simp [this]) hcut) hzn
    have hperm := List.mergeSort_perm (f :: rest) (nodeLe h.value)
    obtain ⟨f', hf'⟩ : ∃ f', ((f :: rest).mergeSort (nodeLe h.value)).head? = some f' := by
      cases hzs : (f :: rest).mergeSort (nodeLe h.value) with
      | nil => have := hperm.length_eq; rw [hzs] at this; simp at this
      | cons z zs => exact ⟨z, rfl⟩
    obtain ⟨t', ht'⟩ : ∃ t', ((f :: rest).mergeSort (nodeLe h.value)).getLast? = some t' := by
      cases hgl : ((f :: rest).mergeSort (nodeLe h.value)).getLast? with
      | none =>
        rw [List.getLast?_eq_none_iff] at hgl
        have := hperm.length_eq; rw [hgl] at this; simp at this
      | some t' => exact ⟨t', rfl⟩
    have hnode : node = some f' := by
      rw [(fwd_head hf5), ← List.head?_eq_getElem?, hf']
    subst hnode
    have hlast : last_loop fuel h5 f' = .ok t' := by
      obtain ⟨tl, htl⟩ := List.head?_eq_some_iff.1 hf'
      rw [htl] at hf5 ht'
      refine last_loop_spec t' fuel tl f' hf5 ht' ?_
      have := hperm.length_eq
      rw [htl] at this
      simp at this hfuel
      omega
    have hring := reattach_ring h5 head f' t' _ hf5 hb5
      (by
        refine List.nodup_cons.2 ⟨fun hm => hhz (hperm.mem_iff.1 hm), hperm.nodup_iff.2 hzn⟩)
      hf' ht'
    refine ⟨_, ?_, hring, ?_, ?_, ?_⟩
    · simp [q_sort, hnf, hpt, deref, bind, Except.bind, hrun, hlast]
    · simp [hv5]
    · simp [hfr5]
    · intro a ha
      have hah : a ≠ head := fun e => ha (by simp [e])
      have haz : a ∉ f :: rest := fun e => ha (List.mem_cons_of_mem _ e)
      have haf' : a ≠ f' := fun e => haz (hperm.mem_iff.1 (e ▸ List.mem_of_mem_head? hf'))
      have hat' : a ≠ t' := fun e => haz (hperm.mem_iff.1 (e ▸ List.mem_of_mem_getLast? ht'))
      have haf : a ≠ f := fun e => haz (by simp [e])
      have hat : a ≠ t := fun e => haz (e ▸ List.mem_of_mem_getLast? ht)
      obtain ⟨e1, e2⟩ := hframe5 a haz
      simp [hah, haf', hat', e1, e2, haf, hat]

/-! ### The comparison -/

theorem toInt32_of_lt {n : Nat} (hn : n < 2147483648) : toInt32 n = (n : Int) := by
  unfold toInt32
  have : n % 4294967296 = n := Nat.mod_eq_of_lt (by omega)
  rw [this, if_pos hn]

theorem toSizeT_natCast {n : Nat} (hn : n < 2147483648) : toSizeT (n : Int) = n := by
  unfold toSizeT
  omega

theorem strlen_of_ok {s : List Nat} (hs : ∀ b ∈ s, 0 < b ∧ b < 256) : strlen s = s.length := by
  unfold strlen
  induction s with
  | nil => rfl
  | cons x s ih =>
    have hx : x ≠ 0 := by have := (hs x (by simp)).1; omega
    simp only [List.takeWhile_cons, bne_iff_ne, ne_eq, hx, not_false_eq_true, ↓reduceIte,
      List.length_cons, add_left_inj]
    exact ih (fun b hb => hs b (List.mem_cons_of_mem _ hb))

theorem strncmp_pos_iff : ∀ (n : Nat) (a b : List Nat), (∀ x ∈ a, 0 < x) → (∀ x ∈ b, 0 < x) →
    a.length ≤ n → b.length ≤ n → (strncmp a b n > 0 ↔ lexLt b a = true) := by
  intro n
  induction n with
  | zero =>
    intro a b _ _ ha hb
    have ha' : a = [] := List.eq_nil_of_length_eq_zero (by omega)
    have hb' : b = [] := List.eq_nil_of_length_eq_zero (by omega)
    subst ha'; subst hb'
    simp [strncmp, lexLt]
  | succ n ih =>
    intro a b hza hzb ha hb
    cases a with
    | nil =>
      cases b with
      | nil => simp [strncmp, lexLt]
      | cons y b =>
        have := hzb y (by simp)
        simp only [strncmp, List.headD_nil, List.headD_cons, lexLt]
        rw [if_pos (by omega)]
        simp
    | cons x a =>
      cases b with
      | nil =>
        have := hza x (by simp)
        simp only [strncmp, List.headD_nil, List.headD_cons, lexLt]
        rw [if_pos (by omega)]
        simp; omega
      | cons y b =>
        have hx := hza x (by simp)
        simp only [strncmp, List.headD_cons, lexLt, List.tail_cons]
        by_cases hxy : x = y
        · subst hxy
          rw [if_neg (by simp), if_neg (by omega), if_neg (by omega), if_neg (by omega)]
          exact ih a b (fun z hz => hza z (List.mem_cons_of_mem _ hz))
            (fun z hz => hzb z (List.mem_cons_of_mem _ hz))
            (by simpa using ha) (by simpa using hb)
        · rw [if_pos hxy]
          by_cases hlt : y < x
          · rw [if_pos hlt]; simp; omega
          · rw [if_neg hlt, if_pos (by omega)]; simp; omega

theorem cmpGt_eq_lexLt {a b : List Nat} (ha : StrOk a) (hb : StrOk b) :
    cmpGt a b = lexLt b a := by
  have hla := strlen_of_ok ha.1
  have hlb := strlen_of_ok hb.1
  have hmax : (if (a.length : Int) > (b.length : Int) then (a.length : Int) else (b.length : Int))
      = ((max a.length b.length : Nat) : Int) := by
    split_ifs with hc <;> omega
  have hlt : max a.length b.length < 2147483648 := by
    have := ha.2; have := hb.2; omega
  unfold cmpGt
  simp only [hla, hlb, toInt32_of_lt ha.2, toInt32_of_lt hb.2, hmax, toSizeT_natCast hlt]
  have := strncmp_pos_iff (max a.length b.length) a b (fun x hx => (ha.1 x hx).1)
    (fun x hx => (hb.1 x hx).1) (by omega) (by omega)
  cases hl : lexLt b a with
  | true => simpa using this.2 hl
  | false =>
    have : ¬ strncmp a b (max a.length b.length) > 0 := fun hc => by
      rw [this.1 hc] at hl; cases hl
    simpa using this

theorem lexLt_irrefl : ∀ (a : List Nat), lexLt a a = false
  | [] => rfl
  | x :: a => by simp [lexLt, lexLt_irrefl a]

theorem lexLe_total : ∀ (a b : List Nat), (lexLe a b || lexLe b a) = true
  | [], [] => rfl
  | [], _ :: _ => rfl
  | _ :: _, [] => rfl
  | x :: a, y :: b => by
    have ih := lexLe_total a b
    simp only [lexLe, lexLt, Bool.or_eq_true, Bool.not_eq_true'] at ih ⊢
    by_cases h1 : x < y
    · simp [h1, Nat.lt_asymm h1]
    · by_cases h2 : y < x
      · simp [h1, h2]
      · simpa [h1, h2] using ih

theorem lexLe_trans : ∀ (a b c : List Nat), lexLe a b = true → lexLe b c = true →
    lexLe a c = true
  | [], _, _, _, _ => by cases ‹List Nat› <;> simp [lexLe, lexLt]
  | _ :: _, [], _, h1, _ => by simp [lexLe, lexLt] at h1
  | _ :: _, _ :: _, [], _, h2 => by simp [lexLe, lexLt] at h2
  | x :: a, y :: b, z :: c, h1, h2 => by
    have ih := lexLe_trans a b c
    simp only [lexLe, lexLt, Bool.not_eq_true'] at ih h1 h2 ⊢
    by_cases hyx : y < x
    · simp [hyx] at h1
    · by_cases hzy : z < y
      · simp [hzy] at h2
      · simp only [hyx, hzy, ↓reduceIte] at h1 h2
        by_cases hxy : x < y
        · have hxz : x < z := by omega
          simp [hxz, Nat.lt_asymm hxz]
        · have hxy' : x = y := by omega
          subst hxy'
          by_cases hxz : x < z
          · simp [hxz, Nat.lt_asymm hxz]
          · have : x = z := by omega
            subst this
            simp only [lt_self_iff_false, ↓reduceIte] at h1 h2 ⊢
            exact ih h1 h2

theorem mergeSort_nodeLe {val : Nat → List Nat} {xs : List Nat}
    (hok : ∀ x ∈ xs, StrOk (val x)) :
    xs.mergeSort (nodeLe val) = xs.mergeSort (payloadLe val) := by
  have := @List.map_mergeSort Nat Nat (nodeLe val) (payloadLe val) id xs (fun a ha b hb => by
    simp only [nodeLe, payloadLe, lexLe, id, cmpGt_eq_lexLt (hok a ha) (hok b hb)])
  simpa using this

theorem payloadLe_trans (val : Nat → List Nat) (a b c : Nat) :
    payloadLe val a b = true → payloadLe val b c = true → payloadLe val a c = true :=
  lexLe_trans _ _ _

theorem payloadLe_total (val : Nat → List Nat) (a b : Nat) :
    (payloadLe val a b || payloadLe val b a) = true :=
  lexLe_total _ _

/-! ### Reading a ring -/

theorem q_elems_chain {h : Heap} {head : Nat} : ∀ (fuel : Nat) (xs : List Nat) (a : Nat),
    List.Chain' (Linked h) (a :: (xs ++ [head])) → head ∉ xs → xs.length < fuel →
    q_elems fuel h head (h.next a) = .ok xs := by
  intro fuel
  induction fuel with
  | zero => intro xs a _ _ hlen; omega
  | succ fuel ih =>
    intro xs a hc hh hlen
    cases xs with
    | nil =>
      have : h.next a = some head := (List.chain'_pair.1 hc).1
      simp [q_elems, this]
    | cons x xs =>
      rw [List.cons_append, List.chain'_cons] at hc
      have hxh : x ≠ head := fun e => hh (by simp [e])
      have := ih xs x hc.2 (fun e => hh (List.mem_cons_of_mem _ e)) (by simpa using hlen)
      simp [q_elems, hc.1.1, hxh, deref, bind, Except.bind, this]

theorem q_elems_of_ring {h : Heap} {head : Nat} {xs : List Nat} {fuel : Nat}
    (hr : Ring h head xs) (hlen : xs.length < fuel) :
    q_elems fuel h head (h.next head) = .ok xs :=
  q_elems_chain fuel xs head hr.2 (List.nodup_cons.1 hr.1).1 hlen

theorem q_size_loop_chain {h : Heap} {head : Nat} : ∀ (fuel : Nat) (xs : List Nat) (a len : Nat),
    List.Chain' (Linked h) (a :: (xs ++ [head])) → head ∉ xs → xs.length < fuel →
    q_size_loop fuel h head (h.next a) len = .ok (len + xs.length) := by
  intro fuel
  induction fuel with
  | zero => intro xs a len _ _ hlen; omega
  | succ fuel ih =>
    intro xs a len hc hh hlen
    cases xs with
    | nil =>
      have : h.next a = some head := (List.chain'_pair.1 hc).1
      simp [q_size_loop, this]
    | cons x xs =>
      rw [List.cons_append, List.chain'_cons] at hc
      have hxh : x ≠ head := fun e => hh (by simp [e])
      have := ih xs x (len + 1) hc.2 (fun e => hh (List.mem_cons_of_mem _ e))
        (by simpa using hlen)
      simp [q_size_loop, hc.1.1, hxh, deref, bind, Except.bind, this]
      omega

theorem q_size_of_ring {h : Heap} {head : Nat} {xs : List Nat} {fuel : Nat}
    (hr : Ring h head xs) (hlen : xs.length < fuel) :
    q_size fuel h (some head) = .ok (toInt32 xs.length) := by
  have := q_size_loop_chain fuel xs head 0 hr.2 (List.nodup_cons.1 hr.1).1 hlen
  simp [q_size, this, bind, Except.bind]

theorem ring_links {h : Heap} {head : Nat} {xs : List Nat} (hr : Ring h head xs) :
    ∀ n ∈ head :: xs, ∃ nx pv, h.next n = some nx ∧ h.prev nx = some n ∧
      h.prev n = some pv ∧ h.next pv = some n := by
  intro n hn
  obtain ⟨l1, l2, hsplit⟩ := List.append_of_mem hn
  have hc := hr.2
  have hcyc : head :: (xs ++ [head]) = l1 ++ n :: (l2 ++ [head]) := by
    rw [← List.cons_append, hsplit]; simp
  rw [hcyc, List.chain'_split] at hc
  obtain ⟨hc1, hc2⟩ := hc
  -- the successor
  obtain ⟨nx, hnx⟩ : ∃ nx, (l2 ++ [head]).head? = some nx := by
    cases l2 <;> simp
  have hsucc := hc2.rel_head? hnx
  -- the predecessor
  have hpred : ∃ pv, Linked h pv n := by
    cases l1 with
    | nil =>
      have hnh : n = head := by
        simp only [List.nil_append, List.cons.injEq] at hsplit
        exact hsplit.1.symm
      subst hnh
      have hc' := hr.2
      rw [← List.cons_append, List.chain'_append] at hc'
      obtain ⟨t, ht⟩ : ∃ t, (n :: xs).getLast? = some t := by
        cases hgl : (n :: xs).getLast? with
        | none => simp at hgl
        | some t => exact ⟨t, rfl⟩
      exact ⟨t, hc'.2.2 t ht n (by simp)⟩
    | cons z l1 =>
      rw [List.chain'_append] at hc1
      obtain ⟨t, ht⟩ : ∃ t, (z :: l1).getLast? = some t := by
        cases hgl : (z :: l1).getLast? with
        | none => simp at hgl
        | some t => exact ⟨t, rfl⟩
      exact ⟨t, hc1.2.2 t ht n (by simp)⟩
  obtain ⟨pv, hpv⟩ := hpred
  exact ⟨nx, pv, hsucc.1, hsucc.2, hpv.2, hpv.1⟩

/-! ### Links of a ring, by position -/

theorem chain_getElem? {R : Nat → Nat → Prop} : ∀ {l : List Nat}, List.Chain' R l →
    ∀ (i u v : Nat), l[i]? = some u → l[i + 1]? = some v → R u v
  | [], _, i, u, v, hu, _ => by simp at hu
  | [_], _, i, u, v, _, hv => by simp at hv
  | a :: b :: rest, hc, 0, u, v, hu, hv => by
    simp only [List.getElem?_cons_zero, Option.some.injEq, zero_add,
      List.getElem?_cons_succ] at hu hv
    subst hu; subst hv
    exact (List.chain'_cons.1 hc).1
  | a :: b :: rest, hc, i + 1, u, v, hu, hv => by
    rw [List.getElem?_cons_succ] at hu hv
    exact chain_getElem? (List.chain'_cons.1 hc).2 i u v hu hv

theorem ring_link_get {h : Heap} {head : Nat} {xs : List Nat} (hr : Ring h head xs)
    (i u v : Nat) (hu : (head :: (xs ++ [head]))[i]? = some u)
    (hv : (head :: (xs ++ [head]))[i + 1]? = some v) : h.next u = some v ∧ h.prev v = some u :=
  chain_getElem? hr.2 i u v hu hv

theorem ring_next_head {h : Heap} {head : Nat} {xs : List Nat} (hr : Ring h head xs) :
    h.next head = some ((xs ++ [head])[0]?.getD head) := by
  cases xs with
  | nil => exact (ring_nil_iff.1 hr).1
  | cons x xs => simpa using (ring_link_get hr 0 head x rfl (by simp)).1

theorem ring_prev_head {h : Heap} {head : Nat} {xs : List Nat} (hr : Ring h head xs) :
    h.prev head = some (xs.getLast?.getD head) := by
  cases xs with
  | nil => exact (ring_nil_iff.1 hr).2
  | cons x xs =>
    obtain ⟨t, ht, -, -, -, hpt, -⟩ := (ring_cons_elim hr)
    rw [hpt, ht]; rfl

theorem ring_next_elem {h : Heap} {head : Nat} {xs : List Nat} (hr : Ring h head xs)
    (i u : Nat) (hu : xs[i]? = some u) : h.next u = some ((xs ++ [head])[i + 1]?.getD head) := by
  have hi : i < xs.length := (List.getElem?_eq_some.1 hu).1
  have h1 : (head :: (xs ++ [head]))[i + 1]? = some u := by
    rw [List.getElem?_cons_succ, List.getElem?_append_left hi, hu]
  obtain ⟨v, hv⟩ : ∃ v, (xs ++ [head])[i + 1]? = some v :=
    ⟨_, List.getElem?_eq_getElem (by simp; omega)⟩
  have h2 : (head :: (xs ++ [head]))[i + 1 + 1]? = some v := by
    rw [List.getElem?_cons_succ, hv]
  rw [hv]
  exact (ring_link_get hr (i + 1) u v h1 h2).1

theorem ring_prev_elem {h : Heap} {head : Nat} {xs : List Nat} (hr : Ring h head xs)
    (i u : Nat) (hu : xs[i]? = some u) : h.prev u = some ((head :: xs)[i]?.getD head) := by
  have hi : i < xs.length := (List.getElem?_eq_some.1 hu).1
  have h1 : (head :: (xs ++ [head]))[i + 1]? = some u := by
    rw [List.getElem?_cons_succ, List.getElem?_append_left hi, hu]
  obtain ⟨v, hv⟩ : ∃ v, (head :: xs)[i]? = some v :=
    ⟨_, List.getElem?_eq_getElem (by simp; omega)⟩
  have h2 : (head :: (xs ++ [head]))[i]? = some v := by
    rw [← List.cons_append, List.getElem?_append_left (by simp; omega), hv]
  rw [hv]
  exact (ring_link_get hr i v u h2 h1).2

/-! ### Unlinking a node of a ring -/

theorem ring_del {h : Heap} {head x : Nat} {as bs : List Nat}
    (hr : Ring h head (as ++ x :: bs)) :
    ∃ h', list_del h x = .ok h' ∧ Ring h' head (as ++ bs) ∧ h'.value = h.value ∧
      h'.freed = h.freed ∧ h'.next x = h.next x ∧ h'.prev x = h.prev x ∧
      ∀ a, a ∉ head :: (as ++ bs) → h'.next a = h.next a ∧ h'.prev a = h.prev a := by
  obtain ⟨hnd, hc⟩ := hr
  have hlist : head :: ((as ++ x :: bs) ++ [head]) = (head :: as) ++ x :: (bs ++ [head]) := by
    simp
  rw [hlist, List.chain'_split] at hc
  obtain ⟨hc1, hc2⟩ := hc
  rw [List.chain'_append] at hc1
  rw [List.chain'_cons'] at hc2
  obtain ⟨hcP, -, hpx⟩ := hc1
  obtain ⟨hxn, hcN⟩ := hc2
  obtain ⟨p, hp⟩ : ∃ p, (head :: as).getLast? = some p := by
    cases hgl : (head :: as).getLast? with
    | none => simp at hgl
    | some t => exact ⟨t, rfl⟩
  obtain ⟨n, hn⟩ : ∃ n, (bs ++ [head]).head? = some n := by
    cases bs <;> simp
  have hLpx := hpx p hp x (by simp)
  have hLxn := hxn n hn
  -- distinctness
  have hnd' : (head :: as ++ x :: bs).Nodup := by simpa using hnd
  obtain ⟨hndP, hndxbs, hdisj⟩ := List.nodup_append.1 hnd'
  have hxbs : x ∉ bs := (List.nodup_cons.1 hndxbs).1
  have hndbs : bs.Nodup := (List.nodup_cons.1 hndxbs).2
  have hheadbs : head ∉ bs := fun e => hdisj (by simp) (List.mem_cons_of_mem _ e)
  have hheadas : head ∉ as := (List.nodup_cons.1 hndP).1
  have hndN : (bs ++ [head]).Nodup := by
    refine List.nodup_append.2 ⟨hndbs, by simp, ?_⟩
    intro a ha ha'
    simp only [List.mem_singleton] at ha'
    exact hheadbs (ha' ▸ ha)
  have hpP : p ∈ head :: as := List.mem_of_mem_getLast? hp
  have hnN : n ∈ bs ++ [head] := List.mem_of_mem_head? hn
  have hxP : x ∉ head :: as := fun e => hdisj e (by simp)
  have hxN : x ∉ bs ++ [head] := by
    intro e
    rcases List.mem_append.1 e with e | e
    · exact hxbs e
    · simp only [List.mem_singleton] at e
      exact hxP (by simp [e])
  have hpx' : x ≠ p := fun e => hxP (e ▸ hpP)
  have hnx' : x ≠ n := fun e => hxN (e ▸ hnN)
  have hndR : (head :: (as ++ bs)).Nodup := by
    have : (head :: (as ++ bs)).Sublist (head :: (as ++ x :: bs)) :=
      List.Sublist.cons₂ _ (List.Sublist.append_left (List.sublist_cons_self _ _) _)
    exact hnd.sublist this
  refine ⟨(h.setPrev n (some p)).setNext p (some n), ?_, ⟨hndR, ?_⟩, rfl, rfl, ?_, ?_, ?_⟩
  · simp [list_del, hLpx.2, hLxn.1, deref, bind, Except.bind]
  · have hlist' : head :: ((as ++ bs) ++ [head]) = (head :: as) ++ (bs ++ [head]) := by simp
    rw [hlist', List.chain'_append]
    refine ⟨chain_frame hcP ?_ ?_, chain_frame hcN ?_ ?_, ?_⟩
    · intro u hu
      have : u ≠ p := ne_last_of_mem_dropLast hndP hp hu
      simp [this]
    · intro v hv
      have hvas : v ∈ as := hv
      have : v ≠ n := by
        intro e
        rcases List.mem_append.1 (e ▸ hnN) with e' | e'
        · exact hdisj (List.mem_cons_of_mem _ hvas) (List.mem_cons_of_mem _ e')
        · simp only [List.mem_singleton] at e'
          exact hheadas (e' ▸ hvas)
      simp [this]
    · intro u hu
      rw [List.dropLast_concat] at hu
      have : u ≠ p := fun e => hdisj (e ▸ hpP) (List.mem_cons_of_mem _ hu)
      simp [this]
    · intro v hv
      have : v ≠ n := ne_head_of_mem_tail hndN hn hv
      simp [this]
    · intro a ha b hb
      rw [hp] at ha; rw [hn] at hb
      simp only [Option.mem_def, Option.some.injEq] at ha hb
      subst ha; subst hb
      simp [Linked]
  · simp [hpx']
  · simp [hnx']
  · intro a ha
    have hap : a ≠ p := by
      intro e
      apply ha
      rcases List.mem_cons.1 (e ▸ hpP) with e' | e'
      · simp [e']
      · exact List.mem_cons_of_mem _ (List.mem_append_left _ e')
    have han : a ≠ n := by
      intro e
      apply ha
      rcases List.mem_append.1 (e ▸ hnN) with e' | e'
      · exact List.mem_cons_of_mem _ (List.mem_append_right _ e')
      · simp only [List.mem_singleton] at e'
        simp [e']
    simp [hap, han]

theorem ring_split_links {h : Heap} {head x : Nat} {as bs : List Nat}
    (hr : Ring h head (as ++ x :: bs)) :
    h.prev x = some (as.getLast?.getD head) ∧ h.next x = some (bs.head?.getD head) := by
  have hc := hr.2
  have hlist : head :: ((as ++ x :: bs) ++ [head]) = (head :: as) ++ x :: (bs ++ [head]) := by
    simp
  rw [hlist, List.chain'_split] at hc
  obtain ⟨hc1, hc2⟩ := hc
  rw [List.chain'_append] at hc1
  rw [List.chain'_cons'] at hc2
  have h1 := hc1.2.2 (as.getLast?.getD head) (by rw [List.getLast?_cons]; rfl) x (by simp)
  have h2 := hc2.1 (bs.head?.getD head) (by cases bs <;> simp)
  exact ⟨h1.2, h2.1⟩

/-! ### Linking a node before the sentinel -/

theorem ring_add_tail {h : Heap} {head x : Nat} {xs : List Nat}
    (hr : Ring h head xs) (hx : x ∉ head :: xs) :
    ∃ h', list_add_tail h x head = .ok h' ∧ Ring h' head (xs ++ [x]) ∧ h'.value = h.value ∧
      h'.freed = h.freed ∧
      ∀ a, a ∉ head :: (xs ++ [x]) → h'.next a = h.next a ∧ h'.prev a = h.prev a := by
  obtain ⟨hnd, hc⟩ := hr
  obtain ⟨p, hp⟩ : ∃ p, (head :: xs).getLast? = some p := by
    cases hgl : (head :: xs).getLast? with
    | none => simp at hgl
    | some t => exact ⟨t, rfl⟩
  rw [← List.cons_append, List.chain'_append] at hc
  obtain ⟨hcP, -, hlast⟩ := hc
  have hLp := hlast p hp head (by simp)
  have hpP : p ∈ head :: xs := List.mem_of_mem_getLast? hp
  have hxp : x ≠ p := fun e => hx (e ▸ hpP)
  have hxh : x ≠ head := fun e => hx (by simp [e])
  have hxxs : x ∉ xs := fun e => hx (List.mem_cons_of_mem _ e)
  have hhxs : head ∉ xs := (List.nodup_cons.1 hnd).1
  have hndR : (head :: (xs ++ [x])).Nodup := by
    rw [← List.cons_append]
    refine List.nodup_append.2 ⟨hnd, by simp, ?_⟩
    intro a ha ha'
    simp only [List.mem_singleton] at ha'
    exact hx (ha' ▸ ha)
  refine ⟨(((h.setNext p (some x)).setNext x (some head)).setPrev x (some p)).setPrev head
    (some x), ?_, ⟨hndR, ?_⟩, rfl, rfl, ?_⟩
  · simp [list_add_tail, hLp.2, deref, bind, Except.bind]
  · have hlist : head :: ((xs ++ [x]) ++ [head]) = (head :: xs) ++ [x, head] := by simp
    rw [hlist, List.chain'_append]
    refine ⟨chain_frame hcP ?_ ?_, ?_, ?_⟩
    · intro u hu
      have h1 : u ≠ p := ne_last_of_mem_dropLast hnd hp hu
      have h2 : u ≠ x := fun e => hx (e ▸ List.mem_of_mem_dropLast hu)
      simp [h1, h2]
    · intro v hv
      have hvxs : v ∈ xs := hv
      have h1 : v ≠ x := fun e => hxxs (e ▸ hvxs)
      have h2 : v ≠ head := fun e => hhxs (e ▸ hvxs)
      simp [h1, h2]
    · rw [List.chain'_pair]
      simp [Linked]
    · intro a ha b hb
      rw [hp] at ha
      simp only [Option.mem_def, Option.some.injEq, List.head?_cons] at ha hb
      subst ha; subst hb
      simp [Linked, hxh, hxp, Ne.symm hxp]
  · intro a ha
    have hap : a ≠ p := by
      intro e
      apply ha
      rcases List.mem_cons.1 (e ▸ hpP) with e' | e'
      · simp [e']
      · exact List.mem_cons_of_mem _ (List.mem_append_left _ e')
    have hax : a ≠ x := fun e => ha (by simp [e])
    have hah : a ≠ head := fun e => ha (by simp [e])
    simp [hap, hax, hah]

/-! ### `q_delete_mid` -/

theorem mid_loop_spec {h : Heap} {head : Nat} {xs : List Nat} (hr : Ring h head xs) :
    ∀ (fuel i : Nat), 2 * i + 1 ≤ xs.length → xs.length ≤ 2 * i + fuel →
      mid_loop fuel h xs[i]? xs[xs.length - 1 - i]? = .ok xs[xs.length / 2]? := by
  have hnd : xs.Nodup := (List.nodup_cons.1 hr.1).2
  intro fuel
  induction fuel with
  | zero => intro i h1 h2; omega
  | succ fuel ih =>
    intro i h1 h2
    obtain ⟨u, hu⟩ : ∃ u, xs[i]? = some u := ⟨_, List.getElem?_eq_getElem (by omega)⟩
    obtain ⟨w, hw⟩ : ∃ w, xs[xs.length - 1 - i]? = some w :=
      ⟨_, List.getElem?_eq_getElem (by omega)⟩
    unfold mid_loop
    by_cases hiw : i = xs.length - 1 - i
    · have : xs.length / 2 = i := by omega
      rw [this, ← hiw]
      simp
    · have huw : xs[i]? ≠ xs[xs.length - 1 - i]? := fun e =>
        hiw (List.getElem?_inj (by omega) hnd e)
      rw [if_pos huw, hu]
      obtain ⟨u1, hu1⟩ : ∃ u1, xs[i + 1]? = some u1 :=
        ⟨_, List.getElem?_eq_getElem (by omega)⟩
      have hnu : h.next u = some u1 := by
        rw [ring_next_elem hr i u hu, List.getElem?_append_left (by omega), hu1]; rfl
      simp only [deref, bind, Except.bind, hnu]
      by_cases hi1 : i + 1 = xs.length - 1 - i
      · have : xs.length / 2 = xs.length - 1 - i := by omega
        rw [this, ← hi1, hu1]
        simp
      · have hne : some u1 ≠ xs[xs.length - 1 - i]? := fun e =>
          hi1 (List.getElem?_inj (by omega) hnd (hu1.trans e))
        rw [if_pos hne, hw]
        obtain ⟨w1, hw1⟩ : ∃ w1, xs[xs.length - 1 - (i + 1)]? = some w1 :=
          ⟨_, List.getElem?_eq_getElem (by omega)⟩
        have hpw : h.prev w = some w1 := by
          rw [ring_prev_elem hr _ w hw]
          have : xs.length - 1 - i = (xs.length - 1 - (i + 1)) + 1 := by omega
          rw [this, List.getElem?_cons_succ, hw1]; rfl
        simp only [hpw]
        rw [← hu1, ← hw1]
        exact ih (i + 1) (by omega) (by omega)

theorem toInt32_ne_zero {n : Nat} (h0 : 0 < n) (hn : n < 2147483648) : toInt32 n ≠ 0 := by
  rw [toInt32_of_lt hn]; omega

/-- C5: on a well-formed queue of `n ≥ 1` elements `q_delete_mid` returns true,
the element at index `n / 2` (from the head, 0-based) is unlinked and released,
and the other elements stay, in their order. -/
theorem q_delete_mid_spec (h : Heap) (head : Nat) (xs : List Nat) (fuel : Nat) (x : Nat)
    (hr : Ring h head xs) (hn : 1 ≤ xs.length) (hsz : xs.length < 2147483648)
    (hfuel : xs.length < fuel) (hx : xs[xs.length / 2]? = some x) :
    ∃ h', q_delete_mid fuel h (some head) = .ok (h', true) ∧
      Ring h' head (xs.eraseIdx (xs.length / 2)) ∧
      q_elems fuel h' head (h'.next head) = .ok (xs.eraseIdx (xs.length / 2)) ∧
      h'.freed = x :: h.freed ∧ h'.value = h.value := by
  have hsize := q_size_of_ring hr hfuel
  have hnext : h.next head = xs[0]? := by
    rw [ring_next_head hr, List.getElem?_append_left (by omega),
      List.getElem?_eq_getElem (by omega)]; rfl
  have hprev : h.prev head = xs[xs.length - 1 - 0]? := by
    rw [ring_prev_head hr, List.getLast?_eq_getElem?, Nat.sub_zero,
      List.getElem?_eq_getElem (by omega)]; rfl
  have hloop := mid_loop_spec hr fuel 0 (by omega) (by omega)
  rw [← hnext, ← hprev, hx] at hloop
  have hk : xs.length / 2 < xs.length := by omega
  have hxs : xs = xs.take (xs.length / 2) ++ x :: xs.drop (xs.length / 2 + 1) := by
    obtain ⟨hk', hx'⟩ := List.getElem?_eq_some.1 hx
    rw [← hx', List.getElem_cons_drop, List.take_append_drop]
  have hr' := hr
  rw [hxs] at hr'
  obtain ⟨h1, hdel, hring, hval, hfreed, -, -, -⟩ := ring_del hr'
  rw [← List.eraseIdx_eq_take_drop_succ] at hring
  refine ⟨{ h1 with freed := x :: h1.freed }, ?_, ?_, ?_, ?_, ?_⟩
  · simp [q_delete_mid, hsize, toInt32_ne_zero (by omega) hsz, deref, bind, Except.bind,
      hloop, remove_element, hdel, q_release_element]
  · exact hring
  · have hlen : (xs.eraseIdx (xs.length / 2)).length < fuel := by
      rw [List.length_eraseIdx]; split <;> omega
    exact @q_elems_of_ring { h1 with freed := x :: h1.freed } head _ fuel hring hlen
  · simp [hfreed]
  · exact hval

/-- C5, at a queue of six elements: the element at index 3 goes. -/
theorem q_delete_mid_spec_witness :
    ∃ h', q_delete_mid 7 (mkQueue 0 [1, 2, 3, 4, 5, 6] []) (some 0) = .ok (h', true) ∧
      Ring h' 0 [1, 2, 3, 5, 6] ∧
      q_elems 7 h' 0 (h'.next 0) = .ok [1, 2, 3, 5, 6] ∧
      h'.freed = 4 :: (mkQueue 0 [1, 2, 3, 4, 5, 6] []).freed ∧
      h'.value = (mkQueue 0 [1, 2, 3, 4, 5, 6] []).value :=
  q_delete_mid_spec (mkQueue 0 [1, 2, 3, 4, 5, 6] []) 0 [1, 2, 3, 4, 5, 6] 7 4
    ⟨by decide, by simp [Linked, mkQueue, List.lookup]⟩ (by decide) (by decide) (by decide)
    (by decide)

/-! ### `q_reverse` -/

theorem ring_move_tail {h : Heap} {head c : Nat} {as bs : List Nat}
    (hr : Ring h head (as ++ c :: bs)) :
    ∃ h', list_move_tail h c head = .ok h' ∧ Ring h' head (as ++ bs ++ [c]) ∧
      h'.value = h.value ∧ h'.freed = h.freed := by
  obtain ⟨h1, hdel, hring1, hv1, hf1, -, -, -⟩ := ring_del hr
  have hc : c ∉ head :: (as ++ bs) := by
    have hnd : (head :: as ++ c :: bs).Nodup := by simpa using hr.1
    obtain ⟨hndP, hndc, hdisj⟩ := List.nodup_append.1 hnd
    intro e
    rcases List.mem_cons.1 e with e | e
    · exact hdisj (by simp [e]) (List.mem_cons_self _ _)
    · rcases List.mem_append.1 e with e | e
      · exact hdisj (List.mem_cons_of_mem _ e) (List.mem_cons_self _ _)
      · exact (List.nodup_cons.1 hndc).1 e
  obtain ⟨h2, hadd, hring2, hv2, hf2, -⟩ := ring_add_tail hring1 hc
  exact ⟨h2, by simp [list_move_tail, hdel, hadd, bind, Except.bind], hring2,
    hv2.trans hv1, hf2.trans hf1⟩

theorem reverse_loop_spec {head t : Nat} : ∀ (fuel : Nat) (pre post : List Nat) (h : Heap),
    Ring h head (pre ++ t :: post) → pre.length < fuel →
    ∃ h', reverse_loop fuel h head t (h.prev t) = .ok h' ∧
      Ring h' head (t :: (post ++ pre.reverse)) ∧ h'.value = h.value ∧ h'.freed = h.freed := by
  intro fuel
  induction fuel with
  | zero => intro pre post h _ hlen; omega
  | succ fuel ih =>
    intro pre post h hr hlen
    have hlinks := ring_split_links hr
    rcases List.eq_nil_or_concat pre with hpre | ⟨pre', c, hpre⟩
    · subst hpre
      have hpt : h.prev t = some head := by simpa using hlinks.1
      exact ⟨h, by simp [reverse_loop, hpt], by simpa using hr, rfl, rfl⟩
    · subst hpre
      have hpt : h.prev t = some c := by simpa using hlinks.1
      have hch : c ≠ head := by
        intro e
        have := (List.nodup_cons.1 hr.1).1
        exact this (by simp [e])
      have hr' : Ring h head (pre' ++ c :: (t :: post)) := by simpa using hr
      obtain ⟨h1, hmove, hring1, hv1, hf1⟩ := ring_move_tail hr'
      have hring1' : Ring h1 head (pre' ++ t :: (post ++ [c])) := by simpa using hring1
      obtain ⟨h2, hrun, hring2, hv2, hf2⟩ := ih pre' (post ++ [c]) h1 hring1'
        (by simp at hlen; omega)
      refine ⟨h2, ?_, by simpa using hring2, hv2.trans hv1, hf2.trans hf1⟩
      simp [reverse_loop, hpt, hch, deref, bind, Except.bind, hmove, hrun]

theorem q_reverse_spec (h : Heap) (head : Nat) (xs : List Nat) (fuel : Nat)
    (hr : Ring h head xs) (hfuel : xs.length < fuel) :
    ∃ h', q_reverse fuel h (some head) = .ok h' ∧ Ring h' head xs.reverse ∧
      h'.value = h.value ∧ h'.freed = h.freed := by
  rcases List.eq_nil_or_concat xs with hxs | ⟨pre, t, hxs⟩
  · subst hxs
    obtain ⟨hn, hp⟩ := ring_nil_iff.1 hr
    refine ⟨h, ?_, by simpa using hr, rfl, rfl⟩
    cases fuel with
    | zero => omega
    | succ fuel => simp [q_reverse, deref, bind, Except.bind, hp, reverse_loop]
  · subst hxs
    have hpt : h.prev head = some t := by
      rw [ring_prev_head hr]; simp
    have hr' : Ring h head (pre ++ t :: []) := by simpa using hr
    obtain ⟨h', hrun, hring, hv, hf⟩ := reverse_loop_spec fuel pre [] h hr'
      (by simp at hfuel; omega)
    refine ⟨h', ?_, by simpa using hring, hv, hf⟩
    simp [q_reverse, deref, bind, Except.bind, hpt, hrun]

/-- C8: on a well-formed queue `q_reverse` returns and the queue then holds the
same nodes in exactly the reversed order; a second `q_reverse` gives the
original order back. -/
theorem q_reverse_reverses (h : Heap) (head : Nat) (xs : List Nat) (fuel : Nat)
    (hr : Ring h head xs) (hfuel : xs.length < fuel) :
    ∃ h', q_reverse fuel h (some head) = .ok h' ∧ Ring h' head xs.reverse ∧
      q_elems fuel h' head (h'.next head) = .ok xs.reverse ∧ h'.value = h.value ∧
      ∃ h'', q_reverse fuel h' (some head) = .ok h'' ∧ Ring h'' head xs ∧
        q_elems fuel h'' head (h''.next head) = .ok xs ∧ h''.value = h.value := by
  obtain ⟨h', hrun, hring, hv, -⟩ := q_reverse_spec h head xs fuel hr hfuel
  obtain ⟨h'', hrun2, hring2, hv2, -⟩ := q_reverse_spec h' head xs.reverse fuel hring
    (by simpa using hfuel)
  rw [List.reverse_reverse] at hring2
  exact ⟨h', hrun, hring, q_elems_of_ring hring (by simpa using hfuel), hv,
    h'', hrun2, hring2, q_elems_of_ring hring2 hfuel, hv2.trans hv⟩

/-- C8, at the queue `[c, a, b]`. -/
theorem q_reverse_reverses_witness :
    ∃ h', q_reverse 4 sampleCAB (some 0) = .ok h' ∧ Ring h' 0 [1, 2, 3].reverse ∧
      q_elems 4 h' 0 (h'.next 0) = .ok [1, 2, 3].reverse ∧ h'.value = sampleCAB.value ∧
      ∃ h'', q_reverse 4 h' (some 0) = .ok h'' ∧ Ring h'' 0 [1, 2, 3] ∧
        q_elems 4 h'' 0 (h''.next 0) = .ok [1, 2, 3] ∧ h''.value = sampleCAB.value :=
  q_reverse_reverses sampleCAB 0 [1, 2, 3] 4 sampleCAB_wf.1 (by decide)

/-! ### `q_swap` -/

theorem q_size_loop_fuel {h : Heap} {head : Nat} : ∀ (fuel : Nat) (xs : List Nat) (a len : Nat),
    List.Chain' (Linked h) (a :: (xs ++ [head])) → head ∉ xs → fuel ≤ xs.length →
    q_size_loop fuel h head (h.next a) len = .error .fuel := by
  intro fuel
  induction fuel with
  | zero => intro xs a len _ _ _; rfl
  | succ fuel ih =>
    intro xs a len hc hh hlen
    cases xs with
    | nil => simp at hlen
    | cons x xs =>
      rw [List.cons_append, List.chain'_cons] at hc
      have hxh : x ≠ head := fun e => hh (by simp [e])
      have := ih xs x (len + 1) hc.2 (fun e => hh (List.mem_cons_of_mem _ e))
        (by simpa using hlen)
      simp [q_size_loop, hc.1.1, hxh, deref, bind, Except.bind, this]

theorem q_size_fuel {h : Heap} {head : Nat} {xs : List Nat} {fuel : Nat}
    (hr : Ring h head xs) (hlen : fuel ≤ xs.length) :
    q_size fuel h (some head) = .error .fuel := by
  have := q_size_loop_fuel fuel xs head 0 hr.2 (List.nodup_cons.1 hr.1).1 hlen
  simp [q_size, this, bind, Except.bind]

/-- One pass through the body of the loop of `q_swap`: the first two elements
go to the tail, the second one first. -/
theorem swap_body {h : Heap} {head f b : Nat} {rest : List Nat}
    (hr : Ring h head (f :: b :: rest)) :
    ∃ h1 h2 h3 h4, list_del h b = .ok h1 ∧ list_add_tail h1 b head = .ok h2 ∧
      list_del h2 f = .ok h3 ∧ list_add_tail h3 f head = .ok h4 ∧
      Ring h4 head (rest ++ [b, f]) ∧ h4.value = h.value ∧ h4.freed = h.freed := by
  have hnd := hr.1
  have hfb : f ≠ b := by
    have := (List.nodup_cons.1 (List.nodup_cons.1 hnd).2).1
    exact fun e => this (by simp [e])
  have hnd3 : (head :: f :: rest).Nodup :=
    hnd.sublist (List.Sublist.cons₂ _ (List.Sublist.cons₂ _ (List.sublist_cons_self _ _)))
  have hb : b ∉ head :: f :: rest := by
    intro e
    have h1 : b ∉ rest := (List.nodup_cons.1 (List.nodup_cons.1 (List.nodup_cons.1 hnd).2).2).1
    have h2 : head ≠ b := fun e' => (List.nodup_cons.1 hnd).1 (by simp [e'])
    rcases List.mem_cons.1 e with e | e
    · exact h2 e.symm
    · rcases List.mem_cons.1 e with e | e
      · exact hfb e.symm
      · exact h1 e
  have hr0 : Ring h head ([f] ++ b :: rest) := hr
  obtain ⟨h1, hd1, hring1, hv1, hf1, -, -, -⟩ := ring_del hr0
  obtain ⟨h2, ha2, hring2, hv2, hf2, -⟩ := ring_add_tail hring1 hb
  have hr2 : Ring h2 head ([] ++ f :: (rest ++ [b])) := hring2
  obtain ⟨h3, hd3, hring3, hv3, hf3, -, -, -⟩ := ring_del hr2
  have hf' : f ∉ head :: ([] ++ (rest ++ [b])) := by
    have := (List.nodup_cons.1 hring2.1).2
    have hfh : f ≠ head := fun e => (List.nodup_cons.1 hring2.1).1 (by simp [e])
    intro e
    rcases List.mem_cons.1 e with e | e
    · exact hfh e
    · exact (List.nodup_cons.1 this).1 e
  obtain ⟨h4, ha4, hring4, hv4, hf4, -⟩ := ring_add_tail hring3 hf'
  refine ⟨h1, h2, h3, h4, hd1, ha2, hd3, ha4, by simpa using hring4, ?_, ?_⟩
  · rw [hv4, hv3, hv2, hv1]
  · rw [hf4, hf3, hf2, hf1]

theorem swap_loop_diverges {head : Nat} : ∀ (fuel : Nat) (xs : List Nat) (h : Heap) (f : Nat),
    Ring h head xs → 2 ≤ xs.length → h.next head = some f →
    swap_loop fuel h head (some f) (h.next f) = .error .fuel := by
  intro fuel
  induction fuel with
  | zero => intro xs h f _ _ _; rfl
  | succ fuel ih =>
    intro xs h f hr hlen hnf
    rcases xs with _ | ⟨f', _ | ⟨b, rest⟩⟩
    · simp at hlen
    · simp at hlen
    · have hf : f = f' := by
        have := ring_next_head hr
        rw [hnf] at this
        simpa using this
      subst hf
      have hnb : h.next f = some b := by
        have := (ring_split_links (show Ring h head ([] ++ f :: (b :: rest)) from hr)).2
        simpa using this
      have hfh : f ≠ head := fun e => (List.nodup_cons.1 hr.1).1 (by simp [e])
      have hbh : b ≠ head := fun e => (List.nodup_cons.1 hr.1).1 (by simp [e])
      obtain ⟨h1, h2, h3, h4, hd1, ha2, hd3, ha4, hring4, -, -⟩ := swap_body hr
      obtain ⟨nf, hnf4⟩ : ∃ nf, h4.next head = some nf := ⟨_, ring_next_head hring4⟩
      have := ih (rest ++ [b, f]) h4 nf hring4 (by simp) hnf4
      simp [swap_loop, hnb, hfh, hbh, deref, bind, Except.bind, hd1, ha2, hd3, ha4, hnf4, this]

/-- C7: on a well-formed queue of two or more elements `q_swap` does not
return: whatever iteration bound it is given, the loop of queue.c 226-233 is
still running when the bound is used up, because every pass moves the first
two elements to the tail and leaves the queue as long as it was. -/
theorem q_swap_diverges (h : Heap) (head : Nat) (xs : List Nat)
    (hr : Ring h head xs) (hlen : 2 ≤ xs.length) (hsz : xs.length < 2147483648) :
    ∀ fuel, q_swap fuel h (some head) = .error .fuel := by
  intro fuel
  by_cases hf : fuel ≤ xs.length
  · simp [q_swap, q_size_fuel hr hf, bind, Except.bind]
  · have hsize := q_size_of_ring hr (Nat.lt_of_not_le hf)
    obtain ⟨f, hnf⟩ : ∃ f, h.next head = some f := ⟨_, ring_next_head hr⟩
    have hloop := swap_loop_diverges fuel xs h f hr hlen hnf
    have h2 : ¬ (toInt32 xs.length < 2) := by rw [toInt32_of_lt hsz]; omega
    simp [q_swap, hsize, h2, deref, bind, Except.bind, hnf, hloop]

/-- C7, at the queue `[a, b]` and one million iterations. -/
theorem q_swap_diverges_witness :
    q_swap 1000000 (mkQueue 0 [1, 2] [(1, [97]), (2, [98])]) (some 0) = .error .fuel :=
  q_swap_diverges (mkQueue 0 [1, 2] [(1, [97]), (2, [98])]) 0 [1, 2]
    ⟨by decide, by simp [Linked, mkQueue, List.lookup]⟩ (by decide) (by decide) 1000000

/-! ### `q_delete_dup` -/

theorem dup_loop_spec {head : Nat} (val : Nat → List Nat) : ∀ (fuel : Nat) (rest done : List Nat)
    (h : Heap) (x : Nat), Ring h head (done ++ x :: rest) → h.value = val → rest.length < fuel →
    ∃ h', dup_loop fuel h head (some x) (h.next x) = (h', some .bounds) ∧
      Ring h' head (done ++ dupKeep val (x :: rest)) ∧ h'.value = val ∧
      h'.freed = (dupDrop val (x :: rest)).reverse ++ h.freed := by
  intro fuel
  induction fuel with
  | zero => intro rest done h x _ _ hlen; omega
  | succ fuel ih =>
    intro rest done h x hr hval hlen
    have hxh : x ≠ head := by
      intro e
      exact (List.nodup_cons.1 hr.1).1 (by simp [e])
    cases rest with
    | nil =>
      have hnx : h.next x = some head := by simpa using (ring_split_links hr).2
      refine ⟨h, ?_, by simpa [dupKeep] using hr, hval, by simp [dupDrop]⟩
      simp [dup_loop, hxh, hnx]
    | cons y rest =>
      have hnx : h.next x = some y := by simpa using (ring_split_links hr).2
      have hyh : y ≠ head := by
        intro e
        exact (List.nodup_cons.1 hr.1).1 (by simp [e])
      by_cases hc : dupEq (val x) (val y) = true
      · obtain ⟨h1, hdel, hring1, hv1, hf1, -, -, -⟩ := ring_del hr
        have hv2 : ({ h1 with freed := x :: h1.freed } : Heap).value = val := by
          rw [← hval, ← hv1]
        obtain ⟨h', hrun, hring', hv', hf'⟩ :=
          ih rest done { h1 with freed := x :: h1.freed } y hring1 hv2 (by simpa using hlen)
        refine ⟨h', ?_, ?_, hv', ?_⟩
        · have hc' : dupEq (h.value x) (h.value y) = true := by rw [hval]; exact hc
          simp only [dup_loop, Option.some.injEq, hxh, hyh, ↓reduceIte, hnx, hc', bind,
            Except.bind, remove_element, deref, hdel, q_release_element]
          exact hrun
        · rw [dupKeep, if_pos hc]; exact hring'
        · rw [hf', dupDrop, if_pos hc]
          simp [hf1]
      · have hr' : Ring h head ((done ++ [x]) ++ y :: rest) := by simpa using hr
        obtain ⟨h', hrun, hring', hv', hf'⟩ := ih rest (done ++ [x]) h y hr' hval
          (by simpa using hlen)
        refine ⟨h', ?_, ?_, hv', ?_⟩
        · have hc' : dupEq (h.value x) (h.value y) = false := by
            rw [hval]; simpa using hc
          simp only [dup_loop, Option.some.injEq, hxh, hyh, ↓reduceIte, hnx, hc',
            Bool.false_eq_true]
          exact hrun
        · rw [dupKeep, if_neg hc]; simpa using hring'
        · rw [hf', dupDrop, if_neg hc]

theorem q_delete_dup_spec (h : Heap) (head : Nat) (xs : List Nat) (fuel : Nat)
    (hr : Ring h head xs) (hlen : 2 ≤ xs.length) (hsz : xs.length < 2147483648)
    (hfuel : xs.length < fuel) :
    ∃ f h', h.next head = some f ∧
      dup_loop fuel h head (some f) (h.next f) = (h', some .bounds) ∧
      q_delete_dup fuel h (some head) = .error .bounds ∧
      Ring h' head (dupKeep h.value xs) ∧ h'.value = h.value ∧
      h'.freed = (dupDrop h.value xs).reverse ++ h.freed := by
  have hsize := q_size_of_ring hr hfuel
  have h2 : ¬ (toInt32 xs.length < 2) := by rw [toInt32_of_lt hsz]; omega
  cases xs with
  | nil => simp at hlen
  | cons x rest =>
    simp only [List.length_cons] at hsize h2
    have hnh : h.next head = some x := by simpa using ring_next_head hr
    have hr0 : Ring h head ([] ++ x :: rest) := by simpa using hr
    obtain ⟨h', hrun, hring, hv, hf⟩ := dup_loop_spec h.value fuel rest [] h x hr0 rfl
      (by simp at hfuel; omega)
    refine ⟨x, h', hnh, hrun, ?_, by simpa using hring, hv, hf⟩
    simp [q_delete_dup, hsize, h2, hnh, deref, bind, Except.bind, hrun]

theorem q_delete_dup_no_result (h : Heap) (head : Nat) (xs : List Nat)
    (hr : Ring h head xs) (hlen : 2 ≤ xs.length) (hsz : xs.length < 2147483648) :
    ∀ fuel r, q_delete_dup fuel h (some head) ≠ .ok r := by
  intro fuel r hok
  by_cases hf : fuel ≤ xs.length
  · simp [q_delete_dup, q_size_fuel hr hf, bind, Except.bind] at hok
  · obtain ⟨_, _, _, _, hrun, _⟩ :=
      q_delete_dup_spec h head xs fuel hr hlen hsz (Nat.lt_of_not_le hf)
    rw [hrun] at hok
    cases hok

/-- C6: on the sorted queue of texts `1, 1, 2, 3, 3, 3` the walk of
`q_delete_dup`, started as `q_delete_dup` starts it, unlinks and releases the
first `1` and the first two `3` and stops at the last element with the read at
the sentinel; there the queue holds the second `1`, the `2` and the last `3`.
One element of every run of duplicates is still linked, the queue is not
`[2]`, and no run of `q_delete_dup` returns a result. -/
theorem q_delete_dup_keeps_one (g : List Nat) :
    ∃ h', dup_loop 7 (sampleDup g) 0 ((sampleDup g).next 0) ((sampleDup g).next 1)
        = (h', some .bounds) ∧
      q_elems 7 h' 0 (h'.next 0) = .ok [2, 3, 6] ∧
      h'.value 2 = [49] ∧ h'.value 3 = [50] ∧ h'.value 6 = [51] ∧ h'.freed = [5, 4, 1] ∧
      q_delete_dup 7 (sampleDup g) (some 0) = .error .bounds ∧
      ∀ fuel r, q_delete_dup fuel (sampleDup g) (some 0) ≠ .ok r := by
  have hr : Ring (sampleDup g) 0 [1, 2, 3, 4, 5, 6] :=
    ⟨by decide, by simp [Linked, sampleDup, mkQueue, List.lookup]⟩
  obtain ⟨f, h', hnf, hrun, hfault, hring, hv, hfr⟩ :=
    q_delete_dup_spec (sampleDup g) 0 [1, 2, 3, 4, 5, 6] 7 hr (by decide) (by decide) (by decide)
  have hf1 : f = 1 := by
    have h0 : (sampleDup g).next 0 = some 1 := rfl
    rw [h0] at hnf
    exact (Option.some.inj hnf).symm
  subst hf1
  have e1 : dupEq [49] [49] = true := by decide
  have e2 : dupEq [49] [50] = false := by decide
  have e3 : dupEq [50] [51] = false := by decide
  have e4 : dupEq [51] [51] = true := by decide
  have hk : dupKeep (sampleDup g).value [1, 2, 3, 4, 5, 6] = [2, 3, 6] := by
    simp [dupKeep, sampleDup, mkQueue, List.lookup, e1, e2, e3, e4]
  have hd : dupDrop (sampleDup g).value [1, 2, 3, 4, 5, 6] = [1, 4, 5] := by
    simp [dupDrop, sampleDup, mkQueue, List.lookup, e1, e2, e3, e4]
  rw [hk] at hring
  rw [hd] at hfr
  refine ⟨h', hrun, q_elems_of_ring hring (by decide), by rw [hv]; rfl, by rw [hv]; rfl,
    by rw [hv]; rfl, by rw [hfr]; rfl, hfault,
    q_delete_dup_no_result (sampleDup g) 0 [1, 2, 3, 4, 5, 6] hr (by decide) (by decide)⟩

/-! ### `q_remove_head`, `q_remove_tail` -/

/-- C10: removing the text `hello` into a three-byte buffer that held `xy`
leaves the buffer with `h` and two zero bytes, not with `he`: the copy length
is taken from the text in the buffer and the terminator is put one byte
before the end of the copy. -/
theorem q_remove_copy_short :
    bufAfter (q_remove_head 9 sampleHello (some 0) (some bufXY) 3) 0 3
      = .ok (some [104, 0, 0]) ∧
    bufAfter (q_remove_tail 9 sampleHello (some 0) (some bufXY) 3) 0 3
      = .ok (some [104, 0, 0]) ∧
    sampleHello.value 1 = [104, 101, 108, 108, 111] ∧ readBuf bufXY 0 3 = [120, 121, 0] :=
  ⟨rfl, rfl, rfl, rfl⟩

/-! ## The claims about `q_sort` -/

theorem q_sort_wf (h : Heap) (head : Nat) (xs : List Nat) (fuel : Nat)
    (hw : WfQueue h head xs) (hfuel : xs.length + 2 ≤ fuel) :
    ∃ h', q_sort fuel h (some head) = .ok h' ∧
      Ring h' head (xs.mergeSort (payloadLe h.value)) ∧ h'.value = h.value ∧
      q_elems fuel h' head (h'.next head) = .ok (xs.mergeSort (payloadLe h.value)) := by
  obtain ⟨h', hrun, hring, hval, -, -⟩ := q_sort_spec h head xs fuel hw.1 hfuel
  rw [mergeSort_nodeLe hw.2] at hring
  exact ⟨h', hrun, hring, hval,
    q_elems_of_ring hring (by rw [List.length_mergeSort]; omega)⟩

/-- C1: on a well-formed queue `q_sort` returns, and the payloads then read
from the sentinel via `next` are in ascending order: each payload is at most
its successor's in the lexicographic order on bytes. -/
theorem q_sort_ascending (h : Heap) (head : Nat) (xs : List Nat) (fuel : Nat)
    (hw : WfQueue h head xs) (hfuel : xs.length + 2 ≤ fuel) :
    ∃ h' ys, q_sort fuel h (some head) = .ok h' ∧
      q_elems fuel h' head (h'.next head) = .ok ys ∧
      List.Chain' (fun p q => lexLe p q = true) (ys.map h'.value) := by
  obtain ⟨h', hrun, -, hval, hel⟩ := q_sort_wf h head xs fuel hw hfuel
  refine ⟨h', _, hrun, hel, ?_⟩
  have hs := List.sorted_mergeSort (payloadLe_trans h.value) (payloadLe_total h.value) xs
  rw [hval]
  exact List.Pairwise.chain' (List.pairwise_map.2 hs)

/-- C1, at the queue `[c, a, b]`; every arrangement of `a`, `b`, `c` becomes
`[a, b, c]`. -/
theorem q_sort_ascending_witness :
    (∃ h' ys, q_sort 5 sampleCAB (some 0) = .ok h' ∧
      q_elems 5 h' 0 (h'.next 0) = .ok ys ∧
      List.Chain' (fun p q => lexLe p q = true) (ys.map h'.value)) ∧
    payloadsAfter 5 (q_sort 5 sampleCAB (some 0)) 0 = .ok [[97], [98], [99]] ∧
    payloadsAfter 5 (q_sort 5 (sample3 [97] [98] [99]) (some 0)) 0 = .ok [[97], [98], [99]] ∧
    payloadsAfter 5 (q_sort 5 (sample3 [97] [99] [98]) (some 0)) 0 = .ok [[97], [98], [99]] ∧
    payloadsAfter 5 (q_sort 5 (sample3 [98] [97] [99]) (some 0)) 0 = .ok [[97], [98], [99]] ∧
    payloadsAfter 5 (q_sort 5 (sample3 [98] [99] [97]) (some 0)) 0 = .ok [[97], [98], [99]] ∧
    payloadsAfter 5 (q_sort 5 (sample3 [99] [98] [97]) (some 0)) 0 = .ok [[97], [98], [99]] :=
  ⟨q_sort_ascending sampleCAB 0 [1, 2, 3] 5 sampleCAB_wf (by decide), rfl, rfl, rfl, rfl, rfl, rfl⟩

/-- C2: `q_sort` only rearranges: the elements read from the sentinel afterwards
are a permutation of the elements before, no payload has changed, and `q_size`
gives the same result. -/
theorem q_sort_perm (h : Heap) (head : Nat) (xs : List Nat) (fuel : Nat)
    (hr : Ring h head xs) (hfuel : xs.length + 2 ≤ fuel) :
    q_elems fuel h head (h.next head) = .ok xs ∧
    ∃ h' ys, q_sort fuel h (some head) = .ok h' ∧
      q_elems fuel h' head (h'.next head) = .ok ys ∧ ys.Perm xs ∧
      (∀ a, h'.value a = h.value a) ∧
      q_size fuel h' (some head) = q_size fuel h (some head) ∧
      q_size fuel h' (some head) = .ok (toInt32 xs.length) := by
  obtain ⟨h', hrun, hring, hval, -, -⟩ := q_sort_spec h head xs fuel hr hfuel
  have hperm := List.mergeSort_perm xs (nodeLe h.value)
  have hlen : (xs.mergeSort (nodeLe h.value)).length < fuel := by
    rw [List.length_mergeSort]; omega
  refine ⟨q_elems_of_ring hr (by omega), h', _, hrun, q_elems_of_ring hring hlen, hperm,
    fun a => by rw [hval], ?_, ?_⟩
  · rw [q_size_of_ring hring hlen, q_size_of_ring hr (by omega), List.length_mergeSort]
  · rw [q_size_of_ring hring hlen, List.length_mergeSort]

/-- C2, at the queue `[c, a, b]`. -/
theorem q_sort_perm_witness :
    q_elems 5 sampleCAB 0 (sampleCAB.next 0) = .ok [1, 2, 3] ∧
    ∃ h' ys, q_sort 5 sampleCAB (some 0) = .ok h' ∧
      q_elems 5 h' 0 (h'.next 0) = .ok ys ∧ ys.Perm [1, 2, 3] ∧
      (∀ a, h'.value a = sampleCAB.value a) ∧
      q_size 5 h' (some 0) = q_size 5 sampleCAB (some 0) ∧
      q_size 5 h' (some 0) = .ok (toInt32 [1, 2, 3].length) :=
  q_sort_perm sampleCAB 0 [1, 2, 3] 5 sampleCAB_wf.1 (by decide)

theorem pair_sublist_of_getElem? : ∀ {xs : List Nat} {i j x y : Nat}, i < j →
    xs[i]? = some x → xs[j]? = some y → List.Sublist [x, y] xs
  | [], _, _, _, _, _, hx, _ => by simp at hx
  | a :: xs, 0, 0, _, _, hij, _, _ => by omega
  | a :: xs, 0, j + 1, x, y, _, hx, hy => by
    simp only [List.getElem?_cons_zero, Option.some.injEq] at hx
    rw [List.getElem?_cons_succ] at hy
    subst hx
    exact List.Sublist.cons₂ _ (List.singleton_sublist.2 (List.getElem?_mem hy))
  | a :: xs, i + 1, 0, _, _, hij, _, _ => by omega
  | a :: xs, i + 1, j + 1, x, y, hij, hx, hy => by
    rw [List.getElem?_cons_succ] at hx hy
    exact List.Sublist.cons _ (pair_sublist_of_getElem? (by omega) hx hy)

theorem getElem?_of_pair_sublist : ∀ {ys : List Nat} {x y : Nat}, List.Sublist [x, y] ys →
    ∃ i j : Nat, i < j ∧ ys[i]? = some x ∧ ys[j]? = some y
  | [], _, _, hs => by cases hs
  | a :: ys, x, y, hs => by
    cases hs with
    | cons _ hs' =>
      obtain ⟨i, j, hij, hx, hy⟩ := getElem?_of_pair_sublist hs'
      exact ⟨i + 1, j + 1, by omega, by simpa using hx, by simpa using hy⟩
    | cons₂ _ hs' =>
      obtain ⟨n, hn⟩ := List.getElem?_of_mem (List.singleton_sublist.1 hs')
      exact ⟨0, n + 1, by omega, by simp, by simpa using hn⟩

/-- C3: `q_sort` is stable: if `x` stands before `y` in the queue (at the
positions `i < j`) and their payloads are equal, then `x` stands before `y`
in the queue after the sort as well. -/
theorem q_sort_stable (h : Heap) (head : Nat) (xs : List Nat) (fuel : Nat) (i j x y : Nat)
    (hw : WfQueue h head xs) (hfuel : xs.length + 2 ≤ fuel)
    (hij : i < j) (hx : xs[i]? = some x) (hy : xs[j]? = some y)
    (heq : h.value x = h.value y) :
    ∃ h' ys, q_sort fuel h (some head) = .ok h' ∧
      q_elems fuel h' head (h'.next head) = .ok ys ∧
      ∃ i' j' : Nat, i' < j' ∧ ys[i']? = some x ∧ ys[j']? = some y := by
  obtain ⟨h', hrun, -, -, hel⟩ := q_sort_wf h head xs fuel hw hfuel
  refine ⟨h', _, hrun, hel, getElem?_of_pair_sublist ?_⟩
  refine List.pair_sublist_mergeSort (payloadLe_trans h.value) (payloadLe_total h.value) ?_
    (pair_sublist_of_getElem? hij hx hy)
  simp [payloadLe, lexLe, heq, lexLt_irrefl]

/-- C3, at the queue `[b, a, b]` and its two elements with payload `b`. -/
theorem q_sort_stable_witness :
    ∃ h' ys, q_sort 5 sampleBAB (some 0) = .ok h' ∧
      q_elems 5 h' 0 (h'.next 0) = .ok ys ∧
      ∃ i' j' : Nat, i' < j' ∧ ys[i']? = some 1 ∧ ys[j']? = some 3 :=
  q_sort_stable sampleBAB 0 [1, 2, 3] 5 0 2 1 3 sampleBAB_wf (by decide) (by decide)
    (by decide) (by decide) (by decide)

/-- C4: `q_sort` gives a well-formed queue again: the `next` fields lead from
the sentinel through every element and back to the sentinel, and every node
`n` of the ring, the sentinel included, has `n.next.prev == n` and
`n.prev.next == n`, no link being `NULL`. -/
theorem q_sort_ring (h : Heap) (head : Nat) (xs : List Nat) (fuel : Nat)
    (hr : Ring h head xs) (hfuel : xs.length + 2 ≤ fuel) :
    ∃ h' ys, q_sort fuel h (some head) = .ok h' ∧ Ring h' head ys ∧
      q_elems fuel h' head (h'.next head) = .ok ys ∧ (∀ x, x ∈ ys ↔ x ∈ xs) ∧
      ∀ n ∈ head :: ys, ∃ nx pv, h'.next n = some nx ∧ h'.prev nx = some n ∧
        h'.prev n = some pv ∧ h'.next pv = some n := by
  obtain ⟨h', hrun, hring, -, -, -⟩ := q_sort_spec h head xs fuel hr hfuel
  exact ⟨h', _, hrun, hring,
    q_elems_of_ring hring (by rw [List.length_mergeSort]; omega),
    fun x => List.mem_mergeSort, ring_links hring⟩

/-- C4, at the queue `[c, a, b]`. -/
theorem q_sort_ring_witness :
    ∃ h' ys, q_sort 5 sampleCAB (some 0) = .ok h' ∧ Ring h' 0 ys ∧
      q_elems 5 h' 0 (h'.next 0) = .ok ys ∧ (∀ x, x ∈ ys ↔ x ∈ [1, 2, 3]) ∧
      ∀ n ∈ 0 :: ys, ∃ nx pv, h'.next n = some nx ∧ h'.prev nx = some n ∧
        h'.prev n = some pv ∧ h'.next pv = some n :=
  q_sort_ring sampleCAB 0 [1, 2, 3] 5 sampleCAB_wf.1 (by decide)

/-! ## The comparison of `merge_two_lists` against the lexicographic order -/

theorem lexLt_iff_lex : ∀ (a b : List Nat),
    lexLt a b = true ↔ List.Lex (fun x y : Nat => x < y) a b
  | _, [] => by
    constructor
    · intro h; cases ‹List Nat› <;> simp [lexLt] at h
    · intro h; exact absurd h (List.Lex.not_nil_right _ _)
  | [], _ :: _ => by
    constructor
    · intro _; exact List.Lex.nil
    · intro _; rfl
  | x :: a, y :: b => by
    have ih := lexLt_iff_lex a b
    by_cases hxy : x < y
    · constructor
      · intro _; exact List.Lex.rel hxy
      · intro _; simp [lexLt, hxy]
    · by_cases hyx : y < x
      · constructor
        · intro h; simp [lexLt, hxy, hyx] at h
        · intro h
          cases h with
          | cons h' => omega
          | rel h' => omega
      · have hEq : x = y := by omega
        subst hEq
        simp only [lexLt, lt_self_iff_false, ↓reduceIte]
        rw [ih]
        constructor
        · intro h; exact List.Lex.cons h
        · intro h
          cases h with
          | cons h' => exact h'
          | rel h' => omega

/-- C19: for byte strings `a`, `b` without a zero byte, the length-bounded test
`strncmp (a, b, max (len a, len b)) > 0` holds exactly when `a` is strictly
greater than `b` in the standard lexicographic order; and so does the test as
`merge_two_lists` computes it, with the lengths held in `int`, for lengths
below 2^31. -/
theorem strncmp_max_refines (a b : List Nat) (ha : ∀ x ∈ a, 0 < x ∧ x < 256)
    (hb : ∀ x ∈ b, 0 < x ∧ x < 256) :
    (strncmp a b (max (strlen a) (strlen b)) > 0 ↔ specGreater a b) ∧
    (a.length < 2147483648 → b.length < 2147483648 →
      (cmpGt a b = true ↔ specGreater a b)) := by
  refine ⟨?_, ?_⟩
  · rw [strlen_of_ok ha, strlen_of_ok hb]
    have := strncmp_pos_iff (max a.length b.length) a b (fun x hx => (ha x hx).1)
      (fun x hx => (hb x hx).1) (by omega) (by omega)
    rw [this]
    exact lexLt_iff_lex b a
  · intro hla hlb
    rw [cmpGt_eq_lexLt ⟨ha, hla⟩ ⟨hb, hlb⟩]
    exact lexLt_iff_lex b a

/-- C19, at `ab` against its proper initial segment `a`. -/
theorem strncmp_max_refines_witness :
    (strncmp [97, 98] [97] (max (strlen [97, 98]) (strlen [97])) > 0 ↔ specGreater [97, 98] [97]) ∧
    (([97, 98] : List Nat).length < 2147483648 → ([97] : List Nat).length < 2147483648 →
      (cmpGt [97, 98] [97] = true ↔ specGreater [97, 98] [97])) :=
  strncmp_max_refines [97, 98] [97] (by decide) (by decide)

/-! ## More about `q_sort` -/

theorem ring_links_unique {h h' : Heap} {head : Nat} {xs : List Nat}
    (hr : Ring h head xs) (hr' : Ring h' head xs) :
    ∀ a ∈ head :: xs, h'.next a = h.next a ∧ h'.prev a = h.prev a := by
  intro a ha
  rcases List.mem_cons.1 ha with rfl | ha
  · exact ⟨by rw [ring_next_head hr, ring_next_head hr'],
      by rw [ring_prev_head hr, ring_prev_head hr']⟩
  · obtain ⟨i, hi⟩ := List.getElem?_of_mem ha
    exact ⟨by rw [ring_next_elem hr i a hi, ring_next_elem hr' i a hi],
      by rw [ring_prev_elem hr i a hi, ring_prev_elem hr' i a hi]⟩

theorem heap_eq_of_fields {h h' : Heap} (hn : ∀ a, h'.next a = h.next a)
    (hp : ∀ a, h'.prev a = h.prev a) (hv : h'.value = h.value) (hf : h'.freed = h.freed) :
    h' = h := by
  cases h; cases h'
  simp only [Heap.mk.injEq]
  exact ⟨funext hn, funext hp, hv, hf⟩

/-- C20: `q_sort` leaves everything as it was on an absent queue and on a
well-formed queue of no or one element: the call returns the heap it was
given, with every `next` and `prev` field, every payload and the element
sequence as before, although for a present queue the guard of line 294 does
not fire (`head->next` is not `NULL`). -/
theorem q_sort_small_noop (h : Heap) (head : Nat) (xs : List Nat) (fuel : Nat)
    (hr : Ring h head xs) (hlen : xs.length ≤ 1) (hfuel : 3 ≤ fuel) :
    q_sort fuel h none = .ok h ∧ h.next head ≠ none ∧
    q_sort fuel h (some head) = .ok h ∧
    q_elems fuel h head (h.next head) = .ok xs := by
  refine ⟨rfl, by rw [ring_next_head hr]; simp, ?_, q_elems_of_ring hr (by omega)⟩
  obtain ⟨h', hrun, hring, hv, hf, hframe⟩ := q_sort_spec h head xs fuel hr (by omega)
  have hxs : xs.mergeSort (nodeLe h.value) = xs := by
    rcases xs with _ | ⟨a, _ | ⟨b, rest⟩⟩
    · simp
    · simp
    · simp at hlen
  rw [hxs] at hring
  have hin := ring_links_unique hr hring
  have : h' = h := by
    refine heap_eq_of_fields (fun a => ?_) (fun a => ?_) hv hf
    · by_cases ha : a ∈ head :: xs
      · exact (hin a ha).1
      · exact (hframe a ha).1
    · by_cases ha : a ∈ head :: xs
      · exact (hin a ha).2
      · exact (hframe a ha).2
  rw [hrun, this]

/-- C20, at a queue with the single element `a`. -/
theorem q_sort_small_noop_witness :
    q_sort 3 (mkQueue 0 [1] [(1, [97])]) none = .ok (mkQueue 0 [1] [(1, [97])]) ∧
    (mkQueue 0 [1] [(1, [97])]).next 0 ≠ none ∧
    q_sort 3 (mkQueue 0 [1] [(1, [97])]) (some 0) = .ok (mkQueue 0 [1] [(1, [97])]) ∧
    q_elems 3 (mkQueue 0 [1] [(1, [97])]) 0 ((mkQueue 0 [1] [(1, [97])]).next 0) = .ok [1] :=
  q_sort_small_noop (mkQueue 0 [1] [(1, [97])]) 0 [1] 3
    ⟨by decide, by simp [Linked, mkQueue, List.lookup]⟩ (by decide) (by decide)

/-- C14: `q_sort` is idempotent on contents: a second `q_sort` leaves the
element sequence that the first one produced; and on a queue whose payloads
are already ascending the first `q_sort` leaves the element sequence as it is. -/
theorem q_sort_idempotent (h : Heap) (head : Nat) (xs : List Nat) (fuel : Nat)
    (hw : WfQueue h head xs) (hfuel : xs.length + 2 ≤ fuel) :
    ∃ h1 ys, q_sort fuel h (some head) = .ok h1 ∧
      q_elems fuel h1 head (h1.next head) = .ok ys ∧
      (∃ h2, q_sort fuel h1 (some head) = .ok h2 ∧
        q_elems fuel h2 head (h2.next head) = .ok ys) ∧
      (List.Chain' (fun p q => lexLe p q = true) (xs.map h.value) → ys = xs) := by
  obtain ⟨h1, hrun1, hring1, hv1, hel1⟩ := q_sort_wf h head xs fuel hw hfuel
  have hsorted := List.sorted_mergeSort (payloadLe_trans h.value) (payloadLe_total h.value) xs
  have hw1 : WfQueue h1 head (xs.mergeSort (payloadLe h.value)) :=
    ⟨hring1, fun x hx => by rw [hv1]; exact hw.2 x (List.mem_mergeSort.1 hx)⟩
  obtain ⟨h2, hrun2, -, -, hel2⟩ := q_sort_wf h1 head _ fuel hw1
    (by rw [List.length_mergeSort]; exact hfuel)
  rw [hv1, List.mergeSort_of_sorted hsorted] at hel2
  refine ⟨h1, _, hrun1, hel1, ⟨h2, hrun2, hel2⟩, ?_⟩
  intro hasc
  rw [List.chain'_map] at hasc
  haveI : IsTrans Nat (fun a b => payloadLe h.value a b = true) :=
    ⟨payloadLe_trans h.value⟩
  have hasc' : List.Chain' (fun a b => payloadLe h.value a b = true) xs := hasc
  exact List.mergeSort_of_sorted (List.chain'_iff_pairwise.1 hasc')

/-- C14, at the queue `[c, a, b]`. -/
theorem q_sort_idempotent_witness :
    ∃ h1 ys, q_sort 5 sampleCAB (some 0) = .ok h1 ∧
      q_elems 5 h1 0 (h1.next 0) = .ok ys ∧
      (∃ h2, q_sort 5 h1 (some 0) = .ok h2 ∧
        q_elems 5 h2 0 (h2.next 0) = .ok ys) ∧
      (List.Chain' (fun p q => lexLe p q = true) ([1, 2, 3].map sampleCAB.value) →
        ys = [1, 2, 3]) :=
  q_sort_idempotent sampleCAB 0 [1, 2, 3] 5 sampleCAB_wf (by decide)

/-! ## Further defects -/

/-- C11: the copy-out writes outside the buffer.  With a three-byte buffer
that starts with a zero byte, removing `hello` copies nothing and puts the
terminator at offset -1, the byte before the buffer (7 before, 0 after); with
`bufsize == 0` and the text `xy` at `sp`, offsets 0 and 1 are written. -/
theorem q_remove_writes_outside :
    readBuf bufZ7 (-1) 4 = [7, 0, 7, 7] ∧
    bufAfter (q_remove_head 9 sampleHello (some 0) (some bufZ7) 3) (-1) 4
      = .ok (some [0, 0, 7, 7]) ∧
    bufAfter (q_remove_tail 9 sampleHello (some 0) (some bufZ7) 3) (-1) 4
      = .ok (some [0, 0, 7, 7]) ∧
    readBuf bufXY 0 3 = [120, 121, 0] ∧
    bufAfter (q_remove_head 9 sampleHello (some 0) (some bufXY) 0) 0 3
      = .ok (some [104, 0, 0]) ∧
    bufAfter (q_remove_tail 9 sampleHello (some 0) (some bufXY) 0) 0 3
      = .ok (some [104, 0, 0]) :=
  ⟨rfl, rfl, rfl, rfl, rfl, rfl⟩

/-- C15: on an absent queue `q_reverse` faults: line 245 reads `head->prev`
through the `NULL` handle, whatever the heap and the iteration bound; on an
empty queue it returns the heap unchanged. -/
theorem q_reverse_null (fuel : Nat) (h : Heap) :
    q_reverse fuel h none = .error .null ∧
    q_reverse 1 (mkQueue 0 [] []) (some 0) = .ok (mkQueue 0 [] []) :=
  ⟨rfl, rfl⟩

/-- C17: on a well-formed queue of two or more elements no run of `q_swap`
ends with a result, however many iterations it is allowed: the loop of
queue.c 226-233 does not stop. -/
theorem q_swap_never_returns (h : Heap) (head : Nat) (xs : List Nat)
    (hr : Ring h head xs) (hlen : 2 ≤ xs.length) (hsz : xs.length < 2147483648) :
    ∀ fuel h', q_swap fuel h (some head) ≠ .ok h' := by
  intro fuel h' hok
  have hfuel : q_swap fuel h (some head) = .error .fuel := by
    by_cases hf : fuel ≤ xs.length
    · simp [q_swap, q_size_fuel hr hf, bind, Except.bind]
    · have hsize := q_size_of_ring hr (Nat.lt_of_not_le hf)
      obtain ⟨f, hnf⟩ : ∃ f, h.next head = some f := ⟨_, ring_next_head hr⟩
      have hloop := swap_loop_diverges fuel xs h f hr hlen hnf
      have h2 : ¬ (toInt32 xs.length < 2) := by rw [toInt32_of_lt hsz]; omega
      simp [q_swap, hsize, h2, deref, bind, Except.bind, hnf, hloop]
  rw [hfuel] at hok
  cases hok

/-- C17, at the queue `[a, b, c]` and one million iterations. -/
theorem q_swap_never_returns_witness :
    q_swap 1000000 sampleCAB (some 0) ≠ .ok sampleCAB :=
  q_swap_never_returns sampleCAB 0 [1, 2, 3] sampleCAB_wf.1 (by decide) (by decide)
    1000000 sampleCAB

/-! ## More about `q_delete_dup` -/

theorem dup_loop_reads_spec {head : Nat} : ∀ (fuel : Nat) (rest done : List Nat) (h : Heap),
    Ring h head (done ++ rest) → rest.length < fuel →
    dup_loop_reads fuel h head (some (rest.head?.getD head)) (h.next (rest.head?.getD head))
      = .ok (dupPairs head rest) := by
  intro fuel
  induction fuel with
  | zero => intro rest done h _ hlen; omega
  | succ fuel ih =>
    intro rest done h hr hlen
    cases rest with
    | nil => simp [dup_loop_reads, dupPairs]
    | cons x rest =>
      have hxh : x ≠ head := by
        intro e
        exact (List.nodup_cons.1 hr.1).1 (by simp [e])
      have hnx : h.next x = some (rest.head?.getD head) := (ring_split_links hr).2
      cases rest with
      | nil =>
        simp only [List.head?_nil, Option.getD_none] at hnx
        simp [dup_loop_reads, hxh, deref, hnx, bind, Except.bind, dupPairs]
      | cons y rest =>
        simp only [List.head?_cons, Option.getD_some] at hnx
        have hyh : y ≠ head := by
          intro e
          exact (List.nodup_cons.1 hr.1).1 (by simp [e])
        by_cases hc : dupEq (h.value x) (h.value y) = true
        · obtain ⟨h1, hdel, hring1, -, -, -, -, -⟩ := ring_del hr
          have hrun := ih (y :: rest) done { h1 with freed := x :: h1.freed } hring1
            (by simpa using hlen)
          simp only [List.head?_cons, Option.getD_some] at hrun
          simp only [dup_loop_reads, List.head?_cons, Option.getD_some, Option.some.injEq, hxh,
            hyh, ↓reduceIte, deref, hnx, bind, Except.bind, hc, remove_element, hdel,
            q_release_element]
          rw [hrun]
          simp [dupPairs]
        · have hr' : Ring h head ((done ++ [x]) ++ y :: rest) := by simpa using hr
          have hrun := ih (y :: rest) (done ++ [x]) h hr' (by simpa using hlen)
          simp only [List.head?_cons, Option.getD_some] at hrun
          have hc' : dupEq (h.value x) (h.value y) = false := by
            simpa using hc
          simp only [dup_loop_reads, List.head?_cons, Option.getD_some, Option.some.injEq, hxh,
            hyh, ↓reduceIte, deref, hnx, bind, Except.bind, hc', Bool.false_eq_true]
          rw [hrun]
          simp [dupPairs]

theorem last_mem_dupPairs (head : Nat) : ∀ (xs : List Nat) (t : Nat),
    xs.getLast? = some t → (t, head) ∈ dupPairs head xs
  | [], t, ht => by simp at ht
  | [x], t, ht => by
    simp only [List.getLast?_singleton, Option.some.injEq] at ht
    subst ht
    simp [dupPairs]
  | x :: y :: rest, t, ht => by
    rw [List.getLast?_cons_cons] at ht
    rw [dupPairs]
    exact List.mem_cons_of_mem _ (last_mem_dupPairs head (y :: rest) t ht)

/-- C18: on a well-formed queue of two or more elements the walk of
`q_delete_dup` compares every element with the node after it, and for the last
element `t` that node is the sentinel: `value` is read at the sentinel `head`
as the partner of `t`. -/
theorem q_delete_dup_reads_sentinel (h : Heap) (head : Nat) (xs : List Nat) (fuel : Nat)
    (hr : Ring h head xs) (hlen : 2 ≤ xs.length) (hsz : xs.length < 2147483648)
    (hfuel : xs.length < fuel) :
    q_delete_dup_reads fuel h (some head) = .ok (dupPairs head xs) ∧
    ∃ t, xs.getLast? = some t ∧ (t, head) ∈ dupPairs head xs := by
  have hsize := q_size_of_ring hr hfuel
  have h2 : ¬ (toInt32 xs.length < 2) := by rw [toInt32_of_lt hsz]; omega
  have hnh : h.next head = some (xs.head?.getD head) := by
    rw [ring_next_head hr]
    cases xs <;> simp
  have hrun := dup_loop_reads_spec fuel xs [] h hr hfuel
  refine ⟨?_, ?_⟩
  · simp [q_delete_dup_reads, hsize, h2, hnh, deref, bind, Except.bind, hrun]
  · cases hgl : xs.getLast? with
    | none =>
      rw [List.getLast?_eq_none_iff] at hgl
      subst hgl
      simp at hlen
    | some t => exact ⟨t, rfl, last_mem_dupPairs head xs t hgl⟩

/-- C18, at the queue `[c, a, b]`: the pairs compared are (c, a), (a, b) and
(b, sentinel). -/
theorem q_delete_dup_reads_sentinel_witness :
    (q_delete_dup_reads 4 sampleCAB (some 0) = .ok (dupPairs 0 [1, 2, 3]) ∧
      ∃ t, ([1, 2, 3] : List Nat).getLast? = some t ∧ (t, 0) ∈ dupPairs 0 [1, 2, 3]) ∧
    q_delete_dup_reads 4 sampleCAB (some 0) = .ok [(1, 2), (2, 3), (3, 0)] :=
  ⟨q_delete_dup_reads_sentinel sampleCAB 0 [1, 2, 3] 4 sampleCAB_wf.1 (by decide) (by decide)
    (by decide), rfl⟩

/-! ## Creation and insertion -/

@[simp] theorem setValue_next (h : Heap) (a : Nat) (v : List Nat) :
    (h.setValue a v).next = h.next := rfl

@[simp] theorem setValue_prev (h : Heap) (a : Nat) (v : List Nat) :
    (h.setValue a v).prev = h.prev := rfl

@[simp] theorem setValue_freed (h : Heap) (a : Nat) (v : List Nat) :
    (h.setValue a v).freed = h.freed := rfl

@[simp] theorem setValue_value (h : Heap) (a : Nat) (v : List Nat) (x : Nat) :
    (h.setValue a v).value x = if x = a then v else h.value x := rfl

theorem ring_setValue {h : Heap} {head : Nat} {xs : List Nat} (a : Nat) (v : List Nat)
    (hr : Ring h head xs) : Ring (h.setValue a v) head xs := hr

theorem q_new_ring (h : Heap) (head : Nat) : Ring (q_new h (some head)).1 head [] := by
  refine ring_nil_iff.2 ⟨?_, ?_⟩ <;> simp [q_new, INIT_LIST_HEAD]

theorem ring_add {h : Heap} {head x : Nat} {xs : List Nat}
    (hr : Ring h head xs) (hx : x ∉ head :: xs) :
    ∃ h', list_add h x head = .ok h' ∧ Ring h' head (x :: xs) ∧ h'.value = h.value ∧
      h'.freed = h.freed := by
  obtain ⟨hnd, hc⟩ := hr
  obtain ⟨n, hn⟩ : ∃ n, (xs ++ [head]).head? = some n := by
    cases xs <;> simp
  rw [List.chain'_cons'] at hc
  obtain ⟨hfirst, hcN⟩ := hc
  have hLn := hfirst n hn
  have hxh : x ≠ head := fun e => hx (by simp [e])
  have hxxs : x ∉ xs := fun e => hx (List.mem_cons_of_mem _ e)
  have hhxs : head ∉ xs := (List.nodup_cons.1 hnd).1
  have hndN : (xs ++ [head]).Nodup := by
    refine List.nodup_append.2 ⟨(List.nodup_cons.1 hnd).2, by simp, ?_⟩
    intro a ha ha'
    simp only [List.mem_singleton] at ha'
    exact hhxs (ha' ▸ ha)
  have hnN : n ∈ xs ++ [head] := List.mem_of_mem_head? hn
  have hxn : x ≠ n := by
    intro e
    rcases List.mem_append.1 (e ▸ hnN) with e' | e'
    · exact hxxs e'
    · simp only [List.mem_singleton] at e'
      exact hxh e'
  have hndR : (head :: x :: xs).Nodup := by
    refine List.nodup_cons.2 ⟨?_, List.nodup_cons.2 ⟨hxxs, (List.nodup_cons.1 hnd).2⟩⟩
    intro e
    rcases List.mem_cons.1 e with e | e
    · exact hxh e.symm
    · exact hhxs e
  refine ⟨(((h.setPrev n (some x)).setNext x (some n)).setPrev x (some head)).setNext head
    (some x), ?_, ⟨hndR, ?_⟩, rfl, rfl⟩
  · simp [list_add, hLn.1, deref, bind, Except.bind]
  · rw [List.cons_append, List.chain'_cons, List.chain'_cons']
    refine ⟨?_, ?_, chain_frame hcN ?_ ?_⟩
    · simp [Linked, hxh]
    · intro y hy
      rw [hn] at hy
      simp only [Option.mem_def, Option.some.injEq] at hy
      subst hy
      simp [Linked, hxh, hxn, Ne.symm hxn]
    · intro u hu
      rw [List.dropLast_concat] at hu
      have h1 : u ≠ head := fun e => hhxs (e ▸ hu)
      have h2 : u ≠ x := fun e => hxxs (e ▸ hu)
      simp [h1, h2]
    · intro v hv
      have h1 : v ≠ n := ne_head_of_mem_tail hndN hn hv
      have h2 : v ≠ x := by
        intro e
        rcases List.mem_append.1 (List.mem_of_mem_tail hv) with e' | e'
        · exact hxxs (e ▸ e')
        · simp only [List.mem_singleton] at e'
          exact hxh (e ▸ e')
      simp [h1, h2]

theorem stored_text {t : List Nat} (ht : TextOk t) :
    (t.take (strlen t)).take (toSizeT (toInt32 (strlen t + 1))) = t := by
  have hl := strlen_of_ok ht.1.1
  have h1 : toInt32 (t.length + 1) = ((t.length + 1 : Nat) : Int) := toInt32_of_lt ht.2
  rw [hl, h1, toSizeT_natCast ht.2, List.take_length]
  exact List.take_of_length_le (by omega)

theorem q_insert_head_spec (h : Heap) (head : Nat) (xs : List Nat) (s : List Nat) (e b : Nat)
    (hr : Ring h head xs) (he : e ∉ head :: xs) :
    ∃ h', q_insert_head h (some head) s (some e) (some b) = .ok (h', true) ∧
      Ring h' head (e :: xs) ∧
      h'.value e = (s.take (strlen s)).take (toSizeT (toInt32 (strlen s + 1))) ∧
      (∀ a, a ≠ e → h'.value a = h.value a) ∧ h'.freed = h.freed := by
  obtain ⟨h', hadd, hring, hv, hf⟩ :=
    ring_add (ring_setValue e ((s.take (strlen s)).take (toSizeT (toInt32 (strlen s + 1)))) hr) he
  refine ⟨h', ?_, hring, ?_, ?_, ?_⟩
  · simp [q_insert_head, new_element, hadd, bind, Except.bind]
  · rw [hv]; simp
  · intro a ha; rw [hv]; simp [ha]
  · rw [hf]; rfl

theorem insert_heads_ring {head : Nat} : ∀ (ins : List (List Nat × Nat)) (h : Heap)
    (xs : List Nat), Ring h head xs → (ins.map (fun p => p.2)).Nodup →
    (∀ a ∈ ins.map (fun p => p.2), a ∉ head :: xs) → (∀ p ∈ ins, TextOk p.1) →
    ∃ h', insert_heads h (some head) ins = .ok (h', true) ∧
      Ring h' head ((ins.map (fun p => p.2)).reverse ++ xs) ∧
      (∀ p ∈ ins, h'.value p.2 = p.1) ∧
      (∀ a, a ∉ ins.map (fun p => p.2) → h'.value a = h.value a)
  | [], h, xs, hr, _, _, _ =>
    ⟨h, rfl, by simpa using hr, by simp, fun _ _ => rfl⟩
  | (t, a) :: rest, h, xs, hr, hnd, hfresh, htxt => by
    have hnd' := List.nodup_cons.1 (by simpa using hnd : (a :: rest.map (fun p => p.2)).Nodup)
    obtain ⟨h1, hrun1, hring1, hva, hvo, -⟩ :=
      q_insert_head_spec h head xs t a 0 hr (hfresh a (by simp))
    obtain ⟨h', hrun, hring, hvin, hvout⟩ := insert_heads_ring rest h1 (a :: xs) hring1 hnd'.2
      (by
        intro c hc hmem
        rcases List.mem_cons.1 hmem with e | hmem
        · exact hfresh c (by simp [List.mem_map] at hc ⊢; exact Or.inr hc) (by simp [e])
        · rcases List.mem_cons.1 hmem with e | hmem
          · exact hnd'.1 (e ▸ hc)
          · exact hfresh c (by simp [List.mem_map] at hc ⊢; exact Or.inr hc)
              (List.mem_cons_of_mem _ hmem))
      (fun p hp => htxt p (List.mem_cons_of_mem _ hp))
    refine ⟨h', ?_, ?_, ?_, ?_⟩
    · simp [insert_heads, hrun1, hrun, bind, Except.bind]
    · simpa using hring
    · intro p hp
      rcases List.mem_cons.1 hp with e | hp
      · subst e
        rw [hvout a hnd'.1, hva]
        exact stored_text (htxt (t, a) (by simp))
      · exact hvin p hp
    · intro c hc
      have hca : c ≠ a := fun e => hc (by simp [e])
      rw [hvout c (fun hm => hc (by simp at hm ⊢; exact Or.inr hm)), hvo c hca]

/-- C12: starting from the queue that `q_new` returns, the calls
`q_insert_head (t1)`, ..., `q_insert_head (tn)` with every allocation
succeeding all return true, after them `q_size` returns `n`, and the payloads
read from the sentinel are `tn, ..., t1`, each one the inserted text. -/
theorem insert_heads_reverse (h0 : Heap) (head : Nat) (ins : List (List Nat × Nat))
    (fuel : Nat) (hfresh : (head :: ins.map (fun p => p.2)).Nodup)
    (htxt : ∀ p ∈ ins, TextOk p.1) (hsz : ins.length < 2147483648)
    (hfuel : ins.length < fuel) :
    ∃ h', insert_heads (q_new h0 (some head)).1 (q_new h0 (some head)).2 ins = .ok (h', true) ∧
      q_size fuel h' (some head) = .ok (ins.length : Int) ∧
      payloadsAfter fuel (.ok h') head = .ok (ins.map (fun p => p.1)).reverse := by
  obtain ⟨hh, hnd⟩ := List.nodup_cons.1 hfresh
  obtain ⟨h', hrun, hring, hvin, -⟩ := insert_heads_ring ins (q_new h0 (some head)).1 []
    (q_new_ring h0 head) hnd
    (by
      intro a ha hmem
      simp only [List.mem_singleton] at hmem
      exact hh (hmem ▸ ha))
    htxt
  rw [List.append_nil] at hring
  have hlen : ((ins.map (fun p => p.2)).reverse).length = ins.length := by simp
  refine ⟨h', hrun, ?_, ?_⟩
  · rw [q_size_of_ring hring (by omega), hlen, toInt32_of_lt hsz]
  · have hel := q_elems_of_ring hring (by omega : ((ins.map (fun p => p.2)).reverse).length < fuel)
    simp only [payloadsAfter, bind, Except.bind, hel]
    congr 1
    rw [← List.map_reverse, ← List.map_reverse, List.map_map]
    refine List.map_congr_left ?_
    intro p hp
    exact hvin p (List.mem_reverse.1 hp)

/-- C12, at the two texts `a`, `b`: the queue then reads `b`, `a`. -/
theorem insert_heads_reverse_witness :
    (∃ h', insert_heads (q_new (mkQueue 0 [] []) (some 0)).1 (q_new (mkQueue 0 [] []) (some 0)).2
        [([97], 1), ([98], 2)] = .ok (h', true) ∧
      q_size 3 h' (some 0) = .ok (([([97], 1), ([98], 2)] : List (List Nat × Nat)).length : Int) ∧
      payloadsAfter 3 (.ok h') 0
        = .ok (([([97], 1), ([98], 2)] : List (List Nat × Nat)).map (fun p => p.1)).reverse) ∧
    payloadsAfter 3 ((insert_heads (q_new (mkQueue 0 [] []) (some 0)).1 (some 0)
        [([97], 1), ([98], 2)]).map (fun r => r.1)) 0 = .ok [[98], [97]] :=
  ⟨insert_heads_reverse (mkQueue 0 [] []) 0 [([97], 1), ([98], 2)] 3 (by decide) (by decide)
    (by decide) (by decide), rfl⟩

/-! ## The ring invariant under the operations -/

end Queue
